import Mathlib

/-!
Shallow embedding of the BAautoCA splitter-design algorithm (the class
`SplitterAlgorithm` of `main.js`) and proofs about it.

JavaScript numbers are modelled as exact rationals (`ℚ`).  The only place the
source can produce `Infinity` is `getDepth` (when the bounded exponent search
fails to match); that is modelled by the dedicated type `ExtInt`.  `null` /
`undefined` results are modelled with `Option`.
-/

/-- Result of `getDepth`, and the type of the derived `complexity` field: an
integer or the JavaScript `Infinity` produced when the exponent search of
`getDepth` does not match. -/
inductive ExtInt where
  | fin (z : ℤ)
  | inf
deriving DecidableEq, Repr

/-- Addition of depths as JavaScript `+` behaves on finite numbers and
`Infinity` (`Infinity` absorbs). -/
def ExtInt.add : ExtInt → ExtInt → ExtInt
  | .fin a, .fin b => .fin (a + b)
  | _, _ => .inf

/-- Strict order on depths; `Infinity` is greater than every finite value. -/
def ExtInt.ltB : ExtInt → ExtInt → Bool
  | .fin a, .fin b => decide (a < b)
  | .fin _, .inf => true
  | .inf, _ => false

/-- A ratio record produced by `generateValidRatios`: the fields `value`,
`fraction` and `depth` of the source. -/
structure RatioT where
  value : ℚ
  fraction : String
  depth : ExtInt
deriving DecidableEq, Repr

/-- Exponent pairs `(a, b)` with `a, b ≤ 10` in the scan order of the nested
loops of `toFraction` and `getDepth` (outer `a`, inner `b`). -/
def expSearchPairs : List (ℕ × ℕ) :=
  (List.range 11).flatMap (fun a => (List.range 11).map (fun b => (a, b)))

/-- The tolerance `1e-10` of the exponent searches and of the flow-conservation
pruning, written as an exact fraction. -/
def eps10 : ℚ := 1 / 10000000000

/-- The matching test of the exponent search:
`Math.abs((1/2)^a * (1/3)^b - value) < 1e-10`. -/
def expMatches (value : ℚ) (p : ℕ × ℕ) : Bool :=
  |(1 / 2 : ℚ) ^ p.1 * (1 / 3 : ℚ) ^ p.2 - value| < eps10

/-- Fallback `value.toFixed(6)` rendering (six digits after the decimal
point); in the source it is reached only for values that the bounded exponent
search cannot match. -/
def toFixed6 (value : ℚ) : String :=
  let n : ℤ := ⌊value * 1000000 + 1 / 2⌋
  let ip : ℤ := n / 1000000
  let fp : ℕ := (n % 1000000).toNat
  let digits := toString fp
  let pad := String.mk (List.replicate (6 - digits.length) '0')
  toString ip ++ "." ++ pad ++ digits

/-- Embedding of `toFraction`: `1` maps to `"1"`, a value matched by the
exponent search to `"1/(2^a * 3^b)"`, anything else to its `toFixed(6)`
fallback. -/
def toFraction (value : ℚ) : String :=
  if value = 1 then "1"
  else
    match expSearchPairs.find? (expMatches value) with
    | some p => "1/" ++ toString ((2 : ℕ) ^ p.1 * 3 ^ p.2)
    | none => toFixed6 value

/-- Embedding of `getDepth`: `1` has depth `0`, a matched value has depth
`a + b`, an unmatched value has depth `Infinity`. -/
def getDepth (value : ℚ) : ExtInt :=
  if value = 1 then .fin 0
  else
    match expSearchPairs.find? (expMatches value) with
    | some p => .fin ((p.1 + p.2 : ℕ) : ℤ)
    | none => .inf

/-- Insertion into the deduplicating value `Set` of `generateValidRatios`,
keeping insertion order (JavaScript `Set` iterates in insertion order). -/
def insertIfAbsent (l : List ℚ) (v : ℚ) : List ℚ :=
  if v ∈ l then l else l ++ [v]

/-- Exponent pairs enumerated by the nested loops of `generateValidRatios`:
`a` from `0` to `maxDepth`, then `b` from `0` to `maxDepth - a`. -/
def depthPairs (maxDepth : ℕ) : List (ℕ × ℕ) :=
  (List.range (maxDepth + 1)).flatMap
    (fun a => (List.range (maxDepth + 1 - a)).map (fun b => (a, b)))

/-- Loop body of `generateValidRatios`: skip `(0, 0)` (the value `1` is
pre-seeded), otherwise insert `(1/2)^a * (1/3)^b` into the set. -/
def ratioInsertStep (acc : List ℚ) (p : ℕ × ℕ) : List ℚ :=
  if p.1 = 0 ∧ p.2 = 0 then acc
  else insertIfAbsent acc ((1 / 2 : ℚ) ^ p.1 * (1 / 3 : ℚ) ^ p.2)

/-- Values collected into the `Set` of `generateValidRatios`, in insertion
order: `1` first, then every `(1/2)^a * (1/3)^b` with `(a, b) ≠ (0, 0)`. -/
def ratioValues (maxDepth : ℕ) : List ℚ :=
  (depthPairs maxDepth).foldl ratioInsertStep [1]

/-- Comparator of the final sort of `generateValidRatios`
(`(a, b) => b.value - a.value`, i.e. descending by value). -/
def ratioGe (x y : RatioT) : Prop := y.value ≤ x.value

instance : DecidableRel ratioGe :=
  fun x y => inferInstanceAs (Decidable (y.value ≤ x.value))

instance : IsTotal RatioT ratioGe := ⟨fun x y => le_total y.value x.value⟩

instance : IsTrans RatioT ratioGe := ⟨fun _ _ _ h h2 => le_trans h2 h⟩

/-- Embedding of `generateValidRatios`: build the deduplicated value set, wrap
each value in a record with its fraction string and depth, and sort descending
by value.  (The JavaScript engine sort is stable, and all values are distinct,
so stable insertion sort produces the same list.) -/
def generateValidRatios (maxDepth : ℕ) : List RatioT :=
  List.insertionSort ratioGe
    ((ratioValues maxDepth).map (fun v => ⟨v, toFraction v, getDepth v⟩))

/-- A battery type as read by the core algorithm: `name`, `power`, `consume`
(the `duration`, `id` and `selected` fields of the catalog are UI-only). -/
structure BatteryType where
  name : String
  power : ℚ
  consume : ℚ
deriving DecidableEq, Repr

/-- An assignment record pushed by the `assign` recursion of
`findBestVariableAssignment`: `{name, ratio, dutyCycle, power, typeData}`. -/
structure AssignmentT where
  name : String
  ratio : RatioT
  dutyCycle : ℚ
  power : ℚ
  typeData : BatteryType
deriving DecidableEq, Repr

/-- Builds one assignment entry:
`dutyCycle = min(1, R * ratio.value / battType.consume)` and
`power = battType.power * dutyCycle`. -/
def mkAssignment (R : ℚ) (ratio : RatioT) (battType : BatteryType) : AssignmentT :=
  let dutyCycle := min 1 (R * ratio.value / battType.consume)
  ⟨battType.name, ratio, dutyCycle, battType.power * dutyCycle, battType⟩

/-- All leaves of the `assign` recursion of `findBestVariableAssignment`, in
depth-first order: one battery type (repetition allowed) chosen per ratio. -/
def assignLeaves (R : ℚ) (batteryTypes : List BatteryType) :
    List RatioT → List (List AssignmentT)
  | [] => [[]]
  | r :: rs =>
    batteryTypes.flatMap
      (fun bt => (assignLeaves R batteryTypes rs).map
        (fun rest => mkAssignment R r bt :: rest))

/-- Sum of a list of rationals, as the `reduce((s, x) => s + x, 0)` folds of
the source. -/
def qsum (l : List ℚ) : ℚ := l.foldl (fun s v => s + v) 0

/-- Total power accumulated along one assignment leaf (the value of
`currentPower` when `assign` reaches `index === ratios.length`). -/
def leafPower (leaf : List AssignmentT) : ℚ := qsum (leaf.map (fun a => a.power))

/-- The `bestResult` record of `findBestVariableAssignment`. -/
structure BestResult where
  totalGenerated : ℚ
  batteries : List AssignmentT
deriving DecidableEq, Repr

/-- One leaf update of the running `minExcess` / `bestResult` pair: a leaf is
taken when it is feasible (`currentPower >= targetPower - 0.01`) and its
excess is strictly below the best excess so far (`Infinity` when there is no
best yet, modelled by `none`). -/
def bestStep (targetPower : ℚ) (best : Option BestResult) (leaf : List AssignmentT) :
    Option BestResult :=
  if targetPower - 1 / 100 ≤ leafPower leaf then
    match best with
    | none => some ⟨leafPower leaf, leaf⟩
    | some b =>
      if leafPower leaf - targetPower < b.totalGenerated - targetPower then
        some ⟨leafPower leaf, leaf⟩
      else some b
  else best

/-- Embedding of `findBestVariableAssignment`: fold the best-update over the
depth-first leaf enumeration; `none` models the `null` result. -/
def findBestVariableAssignment (ratios : List RatioT) (batteryTypes : List BatteryType)
    (targetPower R : ℚ) : Option BestResult :=
  (assignLeaves R batteryTypes ratios).foldl (bestStep targetPower) none

/-- A candidate solution object pushed by `searchForNBatteries`. -/
structure Candidate where
  success : Bool
  batteryCount : ℤ
  batteries : List AssignmentT
  totalPower : ℚ
  excess : ℚ
  totalRatio : ℚ
  complexity : ExtInt
deriving DecidableEq, Repr

/-- The input parameter object of `searchOptimalCombination`. -/
structure Params where
  D : ℚ
  P_base : ℚ
  batteries : List BatteryType
  R : ℚ
  maxDepth : ℕ

/-- Sum of depths (`reduce((sum, r) => sum + r.depth, 0)`), `Infinity`
absorbing. -/
def depthSum (l : List ExtInt) : ExtInt := l.foldl ExtInt.add (.fin 0)

/-- Maximum of a list of rationals (`Math.max(...l)`).  `Math.max()` of an
empty spread is `-Infinity` in JavaScript; every caller in the source
guarantees a non-empty battery list, so the empty case takes an arbitrary
default. -/
def jsMax (l : List ℚ) : ℚ :=
  match l with
  | [] => 0
  | x :: xs => xs.foldl max x

/-- Minimum of a list of rationals (`Math.min(...l)`); empty case as in
`jsMax`. -/
def jsMin (l : List ℚ) : ℚ :=
  match l with
  | [] => 0
  | x :: xs => xs.foldl min x

/-- The leaf of `searchCombinations` (`currentRatios.length === n`): re-check
the ratio sum, run the assignment optimizer, and build the candidate. -/
def searchLeaf (p : Params) (n : ℤ) (currentRatios : List RatioT) : List Candidate :=
  if 1 + eps10 < qsum (currentRatios.map (fun r => r.value)) then []
  else
    match findBestVariableAssignment currentRatios p.batteries (p.D - p.P_base) p.R with
    | none => []
    | some assignment =>
      [{ success := true, batteryCount := n, batteries := assignment.batteries,
         totalPower := p.P_base + assignment.totalGenerated,
         excess := p.P_base + assignment.totalGenerated - p.D,
         totalRatio := qsum (currentRatios.map (fun r => r.value)),
         complexity := ExtInt.add (.fin (n * 10))
           (depthSum (currentRatios.map (fun r => r.depth))) }]

/-- The recursion `searchCombinations` of `searchForNBatteries`, with the
remaining number of picks (`n - currentRatios.length`) as explicit fuel (the
source tests `currentRatios.length === n` instead).  The selection loop scans
`usableRatios` from `index` on and recurses with the same index, so chosen
catalog indices are non-decreasing and multisets are enumerated once. -/
def searchCombinations (p : Params) (usableRatios : List RatioT) (n : ℤ) :
    ℕ → ℕ → List RatioT → List Candidate
  | 0, _, currentRatios => searchLeaf p n currentRatios
  | remaining + 1, index, currentRatios =>
    if 1 + eps10 < qsum (currentRatios.map (fun r => r.value)) then []
    else
      ((usableRatios.enum).drop index).flatMap
        (fun iv =>
          if 1 + eps10 < qsum (currentRatios.map (fun r => r.value)) + iv.2.value then []
          else searchCombinations p usableRatios n remaining iv.1 (currentRatios ++ [iv.2]))

/-- The `usableRatios` filter of `searchForNBatteries`: catalog ratios not
above the highest full-load duty-cycle threshold
`maxFullLoadRatio + 0.0001 = max(consume / R) + 0.0001`. -/
def usableRatios (p : Params) (validRatios : List RatioT) : List RatioT :=
  validRatios.filter
    (fun r => r.value ≤ jsMax (p.batteries.map (fun b => b.consume / p.R)) + 1 / 10000)

/-- Embedding of `searchForNBatteries`: filter the catalog, return `[]` when
nothing is usable, otherwise enumerate combinations from index `0`. -/
def searchForNBatteries (n : ℤ) (p : Params) (validRatios : List RatioT) : List Candidate :=
  if (usableRatios p validRatios).isEmpty then []
  else searchCombinations p (usableRatios p validRatios) n n.toNat 0 []

/-- Non-strict order on depths (`ExtInt.ltB` or equality). -/
def ExtInt.leB : ExtInt → ExtInt → Bool
  | .fin a, .fin b => decide (a ≤ b)
  | .fin _, .inf => true
  | .inf, .fin _ => false
  | .inf, .inf => true

/-- A ranked solution of the success case: a candidate together with the
`type`, `name`, `desc` fields written onto it by the ranking step. -/
structure Labeled where
  cand : Candidate
  type : String
  name : String
  desc : String
deriving DecidableEq, Repr

/-- The zero-battery "base" solution object returned when the deficit is
non-positive. -/
structure BaseSol where
  type : String
  name : String
  desc : String
  batteryCount : ℤ
  batteries : List AssignmentT
  totalPower : ℚ
  excess : ℚ
  complexity : ℤ
deriving DecidableEq, Repr

/-- Result of `searchOptimalCombination`: the base-solution object, the
failure object (whose `solutions` field is `[]` at construction), or the
success object. -/
inductive SearchResult where
  | base (solution : BaseSol)
  | failure (message : String) (solutions : List Labeled)
  | success (solutions : List Labeled)
deriving DecidableEq, Repr

/-- Comparator of the first in-place sort (`(a, b) => a.excess - b.excess`).
The stable JavaScript sort is modelled by stable insertion sort on the
position-tagged candidate list; tags model object identity, which the source
uses through `===` comparisons and in-place label writes. -/
def excessLe (a b : ℕ × Candidate) : Prop := a.2.excess ≤ b.2.excess

instance : DecidableRel excessLe :=
  fun a b => inferInstanceAs (Decidable (a.2.excess ≤ b.2.excess))

instance : IsTotal (ℕ × Candidate) excessLe := ⟨fun a b => le_total a.2.excess b.2.excess⟩

instance : IsTrans (ℕ × Candidate) excessLe := ⟨fun _ _ _ h h2 => le_trans h h2⟩

/-- The candidate list sorted stably by excess, position tags attached. -/
def sortedByExcess (cands : List Candidate) : List (ℕ × Candidate) :=
  List.insertionSort excessLe cands.enum

/-- Comparator of the simple-pool sort
(`(a, b) => a.complexity - b.complexity || a.excess - b.excess`):
lexicographic by complexity, then excess. -/
def complexityLe (a b : ℕ × Candidate) : Prop :=
  ExtInt.ltB a.2.complexity b.2.complexity = true ∨
    (a.2.complexity = b.2.complexity ∧ a.2.excess ≤ b.2.excess)

instance : DecidableRel complexityLe :=
  fun a b =>
    inferInstanceAs (Decidable (ExtInt.ltB a.2.complexity b.2.complexity = true ∨
      (a.2.complexity = b.2.complexity ∧ a.2.excess ≤ b.2.excess)))

/-- Comparator of the fallback sort (`(a, b) => a.complexity - b.complexity`). -/
def complexityOnlyLe (a b : ℕ × Candidate) : Prop :=
  ExtInt.leB a.2.complexity b.2.complexity = true

instance : DecidableRel complexityOnlyLe :=
  fun a b => inferInstanceAs (Decidable (ExtInt.leB a.2.complexity b.2.complexity = true))

/-- Threshold of the simple-pool filter: `max(D * 0.05, 100)`. -/
def excessThreshold (D : ℚ) : ℚ := max (D * (5 / 100)) 100

/-- The simple-candidate pool: the excess-sorted candidate array filtered by
the threshold (the source filters the array it has just sorted in place),
then sorted stably by complexity and excess (again in place). -/
def simpleSorted (D : ℚ) (cands : List Candidate) : List (ℕ × Candidate) :=
  List.insertionSort complexityLe
    ((sortedByExcess cands).filter (fun c => decide (c.2.excess ≤ excessThreshold D + 1 / 100)))

/-- The "precision" pick: head of the excess-sorted array (minimum excess,
ties resolved to the earliest-collected candidate by sort stability). -/
def bestPrecisionT (cands : List Candidate) : Option (ℕ × Candidate) :=
  (sortedByExcess cands).head?

/-- The initial `bestSimple` value: head of the (sorted) simple pool, or the
head of the overall sort by complexity when the pool is empty (the source
falls back to `[...allCandidates].sort((a, b) => a.complexity - b.complexity)[0]`;
the `headD` default `bp` is never used, since the candidate list is non-empty
whenever a precision pick exists). -/
def bestSimple0 (D : ℚ) (cands : List Candidate) (bp : ℕ × Candidate) : ℕ × Candidate :=
  match simpleSorted D cands with
  | s :: _ => s
  | [] => (List.insertionSort complexityOnlyLe (sortedByExcess cands)).headD bp

/-- The "simple" pick: `bestSimple0`, switched to the second pool entry when
the pick is the precision object (`bestSimple === bestPrecision`) and a second
pool entry exists. -/
def bestSimpleT (D : ℚ) (cands : List Candidate) : Option (ℕ × Candidate) :=
  match bestPrecisionT cands with
  | none => none
  | some bp =>
    some (if (bestSimple0 D cands bp).1 = bp.1 ∧ 1 < (simpleSorted D cands).length
      then (simpleSorted D cands).getD 1 (bestSimple0 D cands bp)
      else bestSimple0 D cands bp)

/-- The "balanced" pick: the first candidate of the excess-sorted scan
distinct from the precision and simple picks whose excess differs from the
precision pick's by more than `1` or whose battery count differs. -/
def bestBalancedT (D : ℚ) (cands : List Candidate) : Option (ℕ × Candidate) :=
  match bestPrecisionT cands, bestSimpleT D cands with
  | some bp, some bs =>
    (sortedByExcess cands).find?
      (fun c => decide (c.1 ≠ bp.1 ∧ c.1 ≠ bs.1 ∧
        (1 < |c.2.excess - bp.2.excess| ∨ c.2.batteryCount ≠ bp.2.batteryCount)))
  | _, _ => none

/-- The label triple written onto the simple pick
(`type/name/desc = "simple" / 结构精简 / ...`). -/
def labeledSimple (c : Candidate) : Labeled :=
  ⟨c, "simple", "结构精简", "分流器层数更少或电池更少"⟩

/-- The label triple written onto the precision pick. -/
def labeledPrecision (c : Candidate) : Labeled :=
  ⟨c, "precision", "精准优先", "追求最小的功率溢出"⟩

/-- The label triple written onto the balanced pick. -/
def labeledBalanced (c : Candidate) : Labeled :=
  ⟨c, "balanced", "均衡方案", "综合考虑功率与复杂度"⟩

/-- The labelled solutions list compiled at the end of
`searchOptimalCombination`.  The in-place label writes are modelled by
computing each object's final `type`: the precision object ends up labelled
`"simple"` when the simple pick is the same object
(`bestSimple === bestPrecision`), because the later `bestSimple.type`
assignment overwrites the earlier `bestPrecision.type` one. -/
def rankSolutions (D : ℚ) (cands : List Candidate) : List Labeled :=
  match bestPrecisionT cands, bestSimpleT D cands with
  | some bp, some bs =>
    (if bs.1 = bp.1 then labeledSimple bp.2 else labeledPrecision bp.2) ::
      ((if bs.1 = bp.1 then [] else [labeledSimple bs.2]) ++
        (match bestBalancedT D cands with
         | some bb =>
           if bb.1 ≠ bp.1 ∧ bb.1 ≠ bs.1 then [labeledBalanced bb.2] else []
         | none => []))
  | _, _ => []

/-- The integer loop range `for (let n = lo; n <= hi; n++)`. -/
def intRange (lo hi : ℤ) : List ℤ := (List.range (hi + 1 - lo).toNat).map (fun k => lo + k)

/-- Candidates collected across all searched battery counts, in merge order
(`allCandidates = allCandidates.concat(candidates)`). -/
def collectedCandidates (p : Params) (validRatios : List RatioT) : List Candidate :=
  let maxBatteryPower := jsMax (p.batteries.map (fun b => b.power))
  let minBatteries : ℤ := ⌈(p.D - p.P_base) / maxBatteryPower⌉
  let minConsume := jsMin (p.batteries.map (fun b => b.consume))
  let maxBatteriesFromFuel : ℤ := ⌊p.R / minConsume⌋
  let searchLimit := min (min (minBatteries + 3) (maxBatteriesFromFuel + 2)) 8
  (intRange minBatteries searchLimit).flatMap (fun n => searchForNBatteries n p validRatios)

/-- Embedding of `searchOptimalCombination`: the non-positive-deficit base
short-circuit, the empty-candidate failure value, and the ranked success
value. -/
def searchOptimalCombination (p : Params) : SearchResult :=
  if p.D - p.P_base ≤ 0 then
    .base ⟨"base", "无需电池", "基地发电已满足需求", 0, [], p.P_base, p.P_base - p.D, 0⟩
  else if (collectedCandidates p (generateValidRatios p.maxDepth)).isEmpty then
    .failure "无法找到满足需求的方案" []
  else
    .success (rankSolutions p.D (collectedCandidates p (generateValidRatios p.maxDepth)))

set_option maxRecDepth 100000

/-- Accessor for the `solutions` field of a result object (the base-case
object's single base solution has a different shape and is not included). -/
def SearchResult.solutionsList : SearchResult → List Labeled
  | .base _ => []
  | .failure _ sols => sols
  | .success sols => sols

/-- One line of the textual network description, carrying exactly the data
the source formats into the corresponding string; `ind` counts 2-space
indentation units (`"  ".repeat`). -/
inductive DescLine where
  | returnFlow (ind : ℕ)
  | splitterHeader (ind outlets : ℕ)
  | outletShare (ind pos denom : ℕ) (last : Bool)
  | outletOpen (ind pos : ℕ) (last : Bool)
  | outletReturn (ind pos : ℕ) (last : Bool)
  | batteryDirect (ind : ℕ) (frac : String)
  | batteryLeaf (ind : ℕ) (frac : String)
  | returnArrow (ind : ℕ)
deriving DecidableEq, Repr

/-- The indentation string `"  ".repeat(ind)`. -/
def indentSpaces (ind : ℕ) : String := String.mk (List.replicate (2 * ind) ' ')

/-- The tree-drawing marks of the outlet lines. -/
def branchMark (last : Bool) : String := if last then "└─" else "├─"

/-- Rendering of one description line, reproducing the exact strings of the
source. -/
def renderLine : DescLine → String
  | .returnFlow ind => indentSpaces ind ++ "└─ 回流"
  | .splitterHeader ind outlets =>
    indentSpaces ind ++ (if outlets = 2 then "[两出口分流器]" else "[三出口分流器]")
  | .outletShare ind pos denom last =>
    indentSpaces ind ++ branchMark last ++ " 出口" ++ toString pos ++
      " (1/" ++ toString denom ++ "):"
  | .outletOpen ind pos last =>
    indentSpaces ind ++ branchMark last ++ " 出口" ++ toString pos ++ ":"
  | .outletReturn ind pos last =>
    indentSpaces ind ++ branchMark last ++ " 出口" ++ toString pos ++ " → 回流"
  | .batteryDirect ind frac => indentSpaces ind ++ "└─ → " ++ frac ++ " → 电池组"
  | .batteryLeaf ind frac => indentSpaces ind ++ "└─ → 电池组 (比例: " ++ frac ++ ")"
  | .returnArrow ind => indentSpaces ind ++ "└─ → 回流"

/-- The description string of a list of lines (each description fragment of
the source ends in a newline). -/
def render (lines : List DescLine) : String :=
  String.join (lines.map (fun l => renderLine l ++ "\n"))

/-- One entry of the split sequence of `findSplitSequence`.  The source only
ever pushes `splitter` entries; the `battery` and `return` entry kinds,
handled by dead branches of `constructBranch`, are kept for fidelity. -/
inductive SeqStep where
  | splitter (outlets targetOutlet : ℕ)
  | battery
  | ret
deriving DecidableEq, Repr

/-- Embedding of `findSplitSequence`: decompose the target ratio into
`(1/2)^a * (1/3)^b` over the bounded exponent grid (the source's inner
`break` only leaves the inner loop, but at most one grid pair can match
within the tolerance, so the first lexicographic match is the result;
`a = b = 0`, i.e. the empty sequence, when nothing matches), then emit `b`
ternary stages followed by `a` binary stages, each targeting outlet `0`.
The `inputFlow` argument is threaded by the source but never used. -/
def findSplitSequence (targetRatio : ℚ) (inputFlow : ℚ) : List SeqStep :=
  match expSearchPairs.find? (expMatches targetRatio) with
  | some p =>
    List.replicate p.2 (SeqStep.splitter 3 0) ++ List.replicate p.1 (SeqStep.splitter 2 0)
  | none => []

/-- The outlet loop of one splitter stage in `constructBranch`: the target
outlet prints an open outlet line and then grows `currentIndent` by one unit,
which affects the remaining outlet lines exactly as in the source; the other
outlets print return lines.  Returns the lines and the final indent. -/
def outletLines (outlets targetOutlet : ℕ) (i c : ℕ) : List DescLine × ℕ :=
  if _hi : i < outlets then
    if i = targetOutlet then
      (DescLine.outletOpen c (i + 1) (!decide (i < outlets - 1)) ::
          (outletLines outlets targetOutlet (i + 1) (c + 1)).1,
        (outletLines outlets targetOutlet (i + 1) (c + 1)).2)
    else
      (DescLine.outletReturn c (i + 1) (!decide (i < outlets - 1)) ::
          (outletLines outlets targetOutlet (i + 1) c).1,
        (outletLines outlets targetOutlet (i + 1) c).2)
  else ([], c)
termination_by outlets - i

/-- The `sequence.forEach` body of `constructBranch`, threading the lines
accumulated so far and the growing `currentIndent`. -/
def branchStep (frac : String) (acc : List DescLine × ℕ) (step : SeqStep) :
    List DescLine × ℕ :=
  match step with
  | .battery => (acc.1 ++ [DescLine.batteryLeaf acc.2 frac], acc.2)
  | .ret => (acc.1 ++ [DescLine.returnArrow acc.2], acc.2)
  | .splitter outlets targetOutlet =>
    (acc.1 ++ DescLine.splitterHeader acc.2 outlets ::
        (outletLines outlets targetOutlet 0 acc.2).1,
      (outletLines outlets targetOutlet 0 acc.2).2)

/-- Embedding of `constructBranch` (line form): an empty split sequence
prints the direct battery line, otherwise the sequence's stage lines followed
by the battery line at the final indent. -/
def constructBranchLines (ratio : RatioT) (inputFlow : ℚ) (depth : ℕ) : List DescLine :=
  if findSplitSequence ratio.value inputFlow = [] then
    [DescLine.batteryDirect depth ratio.fraction]
  else
    ((findSplitSequence ratio.value inputFlow).foldl (branchStep ratio.fraction)
        ([], depth)).1 ++
      [DescLine.batteryLeaf
        (((findSplitSequence ratio.value inputFlow).foldl (branchStep ratio.fraction)
            ([], depth)).2)
        ratio.fraction]

/-- Consecutive slices of size `k`
(`for (i = 0; i < n; i += perGroup) groups.push(ratios.slice(i, i + perGroup))`).
The `k = 0` case is unreachable (the source's `perGroup` is at least `2`). -/
def chunksOf (k : ℕ) (l : List RatioT) : List (List RatioT) :=
  if hl : l = [] then []
  else if hk : k = 0 then [l]
  else l.take k :: chunksOf k (l.drop k)
termination_by l.length
decreasing_by
  rw [List.length_drop]
  have h1 : l.length ≠ 0 := fun h0 => hl (List.length_eq_zero.mp h0)
  omega

/-- One step of the recursion of `buildNetworkTree` (line form): dispatch on
the number of ratios as the source does, delegating recursive grouped calls
to `sub`. -/
def buildDispatch (sub : List RatioT → ℚ → ℕ → List DescLine) :
    List RatioT → ℚ → ℕ → List DescLine
  | [], _, depth => [DescLine.returnFlow depth]
  | [ratio], totalFlow, depth => constructBranchLines ratio totalFlow depth
  | [r0, r1], totalFlow, depth =>
    DescLine.splitterHeader depth 3 ::
      DescLine.outletShare depth 1 3 false ::
        (constructBranchLines r0 (totalFlow / 3) (depth + 2) ++
          DescLine.outletShare depth 2 3 false ::
            (constructBranchLines r1 (totalFlow / 3) (depth + 2) ++
              [DescLine.outletReturn depth 3 true]))
  | [r0, r1, r2], totalFlow, depth =>
    DescLine.splitterHeader depth 3 ::
      DescLine.outletShare depth 1 3 false ::
        (constructBranchLines r0 (totalFlow / 3) (depth + 2) ++
          DescLine.outletShare depth 2 3 false ::
            (constructBranchLines r1 (totalFlow / 3) (depth + 2) ++
              DescLine.outletShare depth 3 3 true ::
                constructBranchLines r2 (totalFlow / 3) (depth + 2)))
  | r0 :: r1 :: r2 :: r3 :: rest, totalFlow, depth =>
    let ratios := r0 :: r1 :: r2 :: r3 :: rest
    let groups := chunksOf ((ratios.length + 2) / 3) ratios
    DescLine.splitterHeader depth 3 ::
      (groups.enum.flatMap
        (fun ig =>
          if ig.2 = [] then
            [DescLine.outletReturn depth (ig.1 + 1) (!decide (ig.1 < groups.length - 1))]
          else
            DescLine.outletShare depth (ig.1 + 1) groups.length
                (!decide (ig.1 < groups.length - 1)) ::
              sub ig.2 (totalFlow / (groups.length : ℚ)) (depth + 2)) ++
        (List.range' groups.length (3 - groups.length)).map
          (fun i => DescLine.outletReturn depth (i + 1) true))

/-- The recursion of `buildNetworkTree` (line form) with an explicit fuel
argument for termination.  `buildNetworkTreeLines` supplies `ratios.length`,
which always suffices: for more than three ratios every consecutive group is
strictly shorter than the whole list, and up to three ratios no recursive
call is made, so the exhausted-fuel fallback is never reached. -/
def buildNetworkTreeGo : ℕ → List RatioT → ℚ → ℕ → List DescLine
  | 0, _, _, depth => [DescLine.returnFlow depth]
  | fuel + 1, ratios, totalFlow, depth =>
    buildDispatch (buildNetworkTreeGo fuel) ratios totalFlow depth

/-- The description lines of `buildNetworkTree`. -/
def buildNetworkTreeLines (ratios : List RatioT) (totalFlow : ℚ) (depth : ℕ) :
    List DescLine :=
  buildNetworkTreeGo ratios.length ratios totalFlow depth

/-- NetworkNode as the spec's data model (§3) describes it.  Modelled from
the spec: the source never constructs any node object — `buildNetworkTree`
initialises `const nodes = []` and returns it unfilled — so this type exists
only to state the claimed tree properties. -/
inductive NetworkNode where
  | main (children : List NetworkNode)
  | splitter (outlets : ℕ) (children : List NetworkNode)
  | battery (ratioFraction : String)
  | ret
deriving Repr

mutual

/-- Number of battery leaves of a network node. -/
def nodeBatteryCount : NetworkNode → ℕ
  | NetworkNode.main cs => nodesBatteryCount cs
  | NetworkNode.splitter _ cs => nodesBatteryCount cs
  | NetworkNode.battery _ => 1
  | NetworkNode.ret => 0

/-- Number of battery leaves of a list of network nodes. -/
def nodesBatteryCount : List NetworkNode → ℕ
  | [] => 0
  | n :: ns => nodeBatteryCount n + nodesBatteryCount ns

end

/-- Result object of `buildNetworkTree` / `constructSplitterNetwork`: the
description string plus the `nodes` list.  `none` models the absent `nodes`
field on the single-ratio path, where the source returns `constructBranch`'s
object, which carries no `nodes` property at all. -/
structure NetworkResult where
  description : String
  nodes : Option (List NetworkNode)
deriving Repr

/-- Embedding of `buildNetworkTree`: the description is the rendering of
`buildNetworkTreeLines`; `nodes` is the never-filled empty array, except on
the single-ratio path (absent, `none`). -/
def buildNetworkTree (ratios : List RatioT) (totalFlow : ℚ) (depth : ℕ) : NetworkResult :=
  { description := render (buildNetworkTreeLines ratios totalFlow depth),
    nodes :=
      match ratios with
      | [_] => none
      | _ => some [] }

/-- Embedding of `constructSplitterNetwork`.  The `solution.totalRatio || ...`
fallback recomputation fires when `totalRatio` is falsy, i.e. `0` (candidates
always carry the field, so `undefined` cannot occur here). -/
def constructSplitterNetwork (solution : Candidate) : NetworkResult :=
  if solution.success = false ∨ solution.batteryCount = 0 then
    { description := "无需分流器网络", nodes := some [] }
  else
    buildNetworkTree (solution.batteries.map (fun b => b.ratio))
      (if solution.totalRatio = 0
        then qsum ((solution.batteries.map (fun b => b.ratio)).map (fun r => r.value))
        else solution.totalRatio)
      0

/-- The fraction string of a battery-leaf line, `none` for any other line. -/
def lineFrac : DescLine → Option String
  | .batteryDirect _ frac => some frac
  | .batteryLeaf _ frac => some frac
  | _ => none

/-- The fraction strings of the battery-leaf lines of a description, in
order. -/
def batteryFracs (lines : List DescLine) : List String :=
  lines.filterMap lineFrac

/-- `true` exactly on the ranked success result. -/
def SearchResult.isSuccess : SearchResult → Bool
  | .success _ => true
  | _ => false

/-- The input of the C4 scenario: `D = 1100`, `P_base = 0`, one battery type
of power `1100` and consume rate `0.025`, `R = 1`, `maxDepth = 5`. -/
def paramsC4 : Params := ⟨1100, 0, [⟨"标准电池组", 1100, 1 / 40⟩], 1, 5⟩

/-- A one-battery-type input whose search succeeds with a single ranked
solution: `D = 100`, `P_base = 0`, power `100`, consume `1`, `R = 1`,
`maxDepth = 0` (the catalog then holds only the full ratio). -/
def paramsW : Params := ⟨100, 0, [⟨"b", 100, 1⟩], 1, 0⟩

/-- The same input with `maxDepth = 1`. -/
def params100 : Params := ⟨100, 0, [⟨"b", 100, 1⟩], 1, 1⟩

/-- The full-ratio assignment of the battery type of `paramsW`. -/
def assignW : AssignmentT := ⟨"b", ⟨1, "1", ExtInt.fin 0⟩, 1, 100, ⟨"b", 100, 1⟩⟩

/-- The single candidate the search at `paramsW` produces. -/
def candW : Candidate := ⟨true, 1, [assignW], 100, 0, 1, ExtInt.fin 10⟩

/-- The ranked solutions list at `paramsW`: the one candidate, labelled
simple (the simple pick is the precision object, whose label is
overwritten). -/
def solsW : List Labeled := [⟨candW, "simple", "结构精简", "分流器层数更少或电池更少"⟩]

/-- The half-ratio assignment of the battery type of `params100`. -/
def assignHalf : AssignmentT :=
  ⟨"b", ⟨1 / 2, "1/2", ExtInt.fin 1⟩, 1 / 2, 50, ⟨"b", 100, 1⟩⟩

/-- The two-battery candidate the search at `params100` produces for
`n = 2`. -/
def candTwoHalves : Candidate :=
  ⟨true, 2, [assignHalf, assignHalf], 100, 0, 1, ExtInt.fin 22⟩

/-- The qualifying test of the balanced scan, as a named predicate: distinct
from the precision and simple picks, and excess more than `1` away from the
precision pick's or a different battery count. -/
def balancedQualifies (bp bs c : ℕ × Candidate) : Bool :=
  decide (c.1 ≠ bp.1 ∧ c.1 ≠ bs.1 ∧
    (1 < |c.2.excess - bp.2.excess| ∨ c.2.batteryCount ≠ bp.2.batteryCount))

/-- Modelled from the spec's words, for comparison with `bestBalancedT`: the
balanced scan run over the original merge order (the candidates as collected)
instead of the excess-sorted order. -/
def mergeOrderBalanced (D : ℚ) (cands : List Candidate) : Option (ℕ × Candidate) :=
  match bestPrecisionT cands, bestSimpleT D cands with
  | some bp, some bs => cands.enum.find? (balancedQualifies bp bs)
  | _, _ => none

/-- A bare two-battery candidate record with the given excess and finite
complexity. -/
def cexCand (e : ℚ) (cx : ℤ) : Candidate := ⟨true, 2, [], 0, e, 1, ExtInt.fin cx⟩

/-- A candidate list on which the excess-sorted balanced scan and the
merge-order balanced scan pick different candidates: the precision pick is
the third candidate, the simple pick the fourth, and both remaining
candidates qualify. -/
def candsC7 : List Candidate :=
  [cexCand 90 50, cexCand 40 60, cexCand 0 100, cexCand 50 10]


/-! ### Catalog lemmas -/

lemma mem_insertIfAbsent (l : List ℚ) (v x : ℚ) :
    x ∈ insertIfAbsent l v ↔ x ∈ l ∨ x = v := by
  unfold insertIfAbsent
  split
  · constructor
    · exact Or.inl
    · rintro (h | rfl)
      · exact h
      · assumption
  · simp

lemma nodup_insertIfAbsent (l : List ℚ) (v : ℚ) (h : l.Nodup) :
    (insertIfAbsent l v).Nodup := by
  unfold insertIfAbsent
  split
  · exact h
  · simp_all [List.nodup_append]

lemma subset_insertIfAbsent (l : List ℚ) (v : ℚ) : l ⊆ insertIfAbsent l v := by
  unfold insertIfAbsent
  split
  · exact fun _ h => h
  · exact fun x hx => List.mem_append_left _ hx

lemma mem_ratioInsertStep (acc : List ℚ) (p : ℕ × ℕ) (x : ℚ) :
    x ∈ ratioInsertStep acc p ↔
      x ∈ acc ∨ (¬(p.1 = 0 ∧ p.2 = 0) ∧ x = (1 / 2 : ℚ) ^ p.1 * (1 / 3 : ℚ) ^ p.2) := by
  unfold ratioInsertStep
  split
  · simp_all
  · rw [mem_insertIfAbsent]
    simp_all

lemma mem_foldl_ratioInsertStep (ps : List (ℕ × ℕ)) (acc : List ℚ) (x : ℚ) :
    x ∈ ps.foldl ratioInsertStep acc ↔
      x ∈ acc ∨ ∃ p ∈ ps, ¬(p.1 = 0 ∧ p.2 = 0) ∧ x = (1 / 2 : ℚ) ^ p.1 * (1 / 3 : ℚ) ^ p.2 := by
  induction ps generalizing acc with
  | nil => simp
  | cons q ps ih =>
    rw [List.foldl_cons, ih, mem_ratioInsertStep]
    constructor
    · rintro ((h | h) | ⟨p, hp, hne, rfl⟩)
      · exact Or.inl h
      · exact Or.inr ⟨q, List.mem_cons_self q ps, h.1, h.2⟩
      · exact Or.inr ⟨p, List.mem_cons_of_mem q hp, hne, rfl⟩
    · rintro (h | ⟨p, hp, hne, rfl⟩)
      · exact Or.inl (Or.inl h)
      · rcases List.mem_cons.mp hp with rfl | hp
        · exact Or.inl (Or.inr ⟨hne, rfl⟩)
        · exact Or.inr ⟨p, hp, hne, rfl⟩

lemma nodup_foldl_ratioInsertStep (ps : List (ℕ × ℕ)) (acc : List ℚ) (h : acc.Nodup) :
    (ps.foldl ratioInsertStep acc).Nodup := by
  induction ps generalizing acc with
  | nil => exact h
  | cons q ps ih =>
    rw [List.foldl_cons]
    apply ih
    unfold ratioInsertStep
    split
    · exact h
    · exact nodup_insertIfAbsent _ _ h

lemma subset_foldl_ratioInsertStep (ps : List (ℕ × ℕ)) (acc : List ℚ) :
    acc ⊆ ps.foldl ratioInsertStep acc := by
  induction ps generalizing acc with
  | nil => exact fun _ h => h
  | cons q ps ih =>
    rw [List.foldl_cons]
    intro x hx
    apply ih
    unfold ratioInsertStep
    split
    · exact hx
    · exact subset_insertIfAbsent _ _ hx

lemma mem_depthPairs (d : ℕ) (p : ℕ × ℕ) : p ∈ depthPairs d ↔ p.1 + p.2 ≤ d := by
  unfold depthPairs
  simp only [List.mem_flatMap, List.mem_range, List.mem_map]
  constructor
  · rintro ⟨a, ha, b, hb, rfl⟩
    simp only []
    omega
  · intro h
    exact ⟨p.1, by omega, p.2, by omega, rfl⟩

lemma mem_ratioValues (d : ℕ) (x : ℚ) :
    x ∈ ratioValues d ↔ ∃ a b : ℕ, a + b ≤ d ∧ x = (1 / 2 : ℚ) ^ a * (1 / 3 : ℚ) ^ b := by
  unfold ratioValues
  rw [mem_foldl_ratioInsertStep]
  constructor
  · rintro (h | ⟨p, hp, -, rfl⟩)
    · refine ⟨0, 0, by omega, ?_⟩
      simpa using h
    · exact ⟨p.1, p.2, (mem_depthPairs d p).mp hp, rfl⟩
  · rintro ⟨a, b, hab, rfl⟩
    by_cases h0 : a = 0 ∧ b = 0
    · left
      simp [h0.1, h0.2]
    · right
      exact ⟨(a, b), (mem_depthPairs d (a, b)).mpr hab, h0, rfl⟩

lemma one_mem_ratioValues (d : ℕ) : (1 : ℚ) ∈ ratioValues d :=
  subset_foldl_ratioInsertStep _ [1] (by simp)

lemma nodup_ratioValues (d : ℕ) : (ratioValues d).Nodup :=
  nodup_foldl_ratioInsertStep _ [1] (by simp)

lemma generateValidRatios_perm (d : ℕ) :
    List.Perm (generateValidRatios d)
      ((ratioValues d).map (fun v => ⟨v, toFraction v, getDepth v⟩)) :=
  List.perm_insertionSort _ _

lemma sorted_generateValidRatios (d : ℕ) : List.Sorted ratioGe (generateValidRatios d) :=
  List.sorted_insertionSort _ _

lemma mem_generateValidRatios (d : ℕ) (r : RatioT) :
    r ∈ generateValidRatios d ↔ ∃ v ∈ ratioValues d, r = ⟨v, toFraction v, getDepth v⟩ := by
  rw [(generateValidRatios_perm d).mem_iff, List.mem_map]
  constructor
  · rintro ⟨v, hv, rfl⟩
    exact ⟨v, hv, rfl⟩
  · rintro ⟨v, hv, rfl⟩
    exact ⟨v, hv, rfl⟩

lemma values_generateValidRatios_perm (d : ℕ) :
    List.Perm ((generateValidRatios d).map (fun r => r.value)) (ratioValues d) := by
  have h1 : ((ratioValues d).map (fun v => (⟨v, toFraction v, getDepth v⟩ : RatioT))).map
      (fun r => r.value) = ratioValues d := by
    rw [List.map_map]
    exact List.map_id'' (fun _ => rfl) _
  have h2 := (generateValidRatios_perm d).map (fun r : RatioT => r.value)
  rw [h1] at h2
  exact h2

lemma nodup_values_generateValidRatios (d : ℕ) :
    ((generateValidRatios d).map (fun r => r.value)).Nodup :=
  (values_generateValidRatios_perm d).nodup_iff.mpr (nodup_ratioValues d)

lemma pairwise_lt_generateValidRatios (d : ℕ) :
    List.Pairwise (fun x y : RatioT => y.value < x.value) (generateValidRatios d) := by
  have hs : List.Pairwise ratioGe (generateValidRatios d) := sorted_generateValidRatios d
  have hne : List.Pairwise (fun x y : RatioT => x.value ≠ y.value) (generateValidRatios d) :=
    List.pairwise_map.mp (nodup_values_generateValidRatios d)
  exact (hs.and hne).imp (fun h => lt_of_le_of_ne h.1 h.2.symm)

lemma countP_eq_one_value (l : List ℚ) (hn : l.Nodup) (hm : (1 : ℚ) ∈ l) :
    l.countP (fun v => decide (v = 1)) = 1 := by
  induction l with
  | nil => cases hm
  | cons x xs ih =>
    rcases List.mem_cons.mp hm with rfl | hm2
    · rw [List.countP_cons_of_pos _ _ (by simp)]
      have hz : xs.countP (fun v => decide (v = 1)) = 0 := by
        rw [List.countP_eq_zero]
        intro a ha
        simp only [decide_eq_true_eq]
        rintro rfl
        exact (List.nodup_cons.mp hn).1 ha
      omega
    · have hx : ¬(x = 1) := by
        rintro rfl
        exact (List.nodup_cons.mp hn).1 hm2
      rw [List.countP_cons_of_neg _ _ (by simpa using hx)]
      exact ih (List.nodup_cons.mp hn).2 hm2

lemma countP_value_one_generateValidRatios (d : ℕ) :
    (generateValidRatios d).countP (fun r => decide (r.value = 1)) = 1 := by
  have h1 : (generateValidRatios d).countP (fun r => decide (r.value = 1)) =
      ((generateValidRatios d).map (fun r => r.value)).countP (fun v => decide (v = 1)) := by
    rw [List.countP_map]
    rfl
  rw [h1, (values_generateValidRatios_perm d).countP_eq]
  exact countP_eq_one_value _ (nodup_ratioValues d) (one_mem_ratioValues d)

/-- C5: for every `maxDepth`, every ratio produced by `generateValidRatios`
has value `(1/2)^a * (1/3)^b` for some `a, b ≥ 0` with `a + b ≤ maxDepth`,
the value `1` appears exactly once, and the list is sorted in strictly
descending order of value. -/
theorem claim_C5_generateValidRatios_catalog (maxDepth : ℕ) :
    (∀ r ∈ generateValidRatios maxDepth,
        ∃ a b : ℕ, a + b ≤ maxDepth ∧ r.value = (1 / 2 : ℚ) ^ a * (1 / 3 : ℚ) ^ b) ∧
    (generateValidRatios maxDepth).countP (fun r => decide (r.value = 1)) = 1 ∧
    List.Pairwise (fun x y : RatioT => y.value < x.value) (generateValidRatios maxDepth) := by
  refine ⟨?_, countP_value_one_generateValidRatios maxDepth,
    pairwise_lt_generateValidRatios maxDepth⟩
  intro r hr
  rcases (mem_generateValidRatios maxDepth r).mp hr with ⟨v, hv, rfl⟩
  rcases (mem_ratioValues maxDepth v).mp hv with ⟨a, b, hab, rfl⟩
  exact ⟨a, b, hab, rfl⟩

/-! ### Assignment-optimizer lemmas -/

lemma mkAssignment_ratio (R : ℚ) (r : RatioT) (bt : BatteryType) :
    (mkAssignment R r bt).ratio = r := rfl

lemma mkAssignment_typeData (R : ℚ) (r : RatioT) (bt : BatteryType) :
    (mkAssignment R r bt).typeData = bt := rfl

lemma mem_assignLeaves_shape (R : ℚ) (ts : List BatteryType) :
    ∀ ratios leaf, leaf ∈ assignLeaves R ts ratios →
      leaf.map (fun a => a.ratio) = ratios ∧
      ∀ a ∈ leaf, a.typeData ∈ ts ∧ a = mkAssignment R a.ratio a.typeData := by
  intro ratios
  induction ratios with
  | nil =>
    intro leaf h
    simp only [assignLeaves, List.mem_singleton] at h
    subst h
    simp
  | cons r rs ih =>
    intro leaf h
    simp only [assignLeaves, List.mem_flatMap, List.mem_map] at h
    rcases h with ⟨bt, hbt, rest, hrest, rfl⟩
    rcases ih rest hrest with ⟨hmap, hmem⟩
    constructor
    · simp [hmap, mkAssignment_ratio]
    · intro a ha
      rcases List.mem_cons.mp ha with rfl | ha2
      · exact ⟨hbt, rfl⟩
      · exact hmem a ha2

lemma sum_map_const_nat {α : Type} (l : List α) (c : ℕ) :
    (l.map (fun _ => c)).sum = l.length * c := by
  induction l with
  | nil => simp
  | cons x xs ih => simp [ih, Nat.succ_mul, Nat.add_comm]

lemma length_assignLeaves (R : ℚ) (ts : List BatteryType) :
    ∀ ratios, (assignLeaves R ts ratios).length = ts.length ^ ratios.length := by
  intro ratios
  induction ratios with
  | nil => simp [assignLeaves]
  | cons r rs ih =>
    simp only [assignLeaves, List.length_flatMap, List.length_map, List.length_cons]
    have h1 : (ts.map (fun bt => (assignLeaves R ts rs).length)).sum =
        ts.length * (assignLeaves R ts rs).length := sum_map_const_nat ts _
    rw [Function.comp_def]
    simp only [List.length_map]
    rw [h1, ih, pow_succ, Nat.mul_comm]


lemma bestStep_of_not_feas (t : ℚ) (acc : Option BestResult) (leaf : List AssignmentT)
    (h : ¬ t - 1 / 100 ≤ leafPower leaf) : bestStep t acc leaf = acc := by
  unfold bestStep
  rw [if_neg h]

lemma bestStep_none_of_feas (t : ℚ) (leaf : List AssignmentT)
    (h : t - 1 / 100 ≤ leafPower leaf) :
    bestStep t none leaf = some ⟨leafPower leaf, leaf⟩ := by
  unfold bestStep
  rw [if_pos h]

lemma bestStep_some_of_feas_lt (t : ℚ) (b : BestResult) (leaf : List AssignmentT)
    (h : t - 1 / 100 ≤ leafPower leaf)
    (hlt : leafPower leaf - t < b.totalGenerated - t) :
    bestStep t (some b) leaf = some ⟨leafPower leaf, leaf⟩ := by
  unfold bestStep
  rw [if_pos h]
  exact if_pos hlt

lemma bestStep_some_of_feas_ge (t : ℚ) (b : BestResult) (leaf : List AssignmentT)
    (h : t - 1 / 100 ≤ leafPower leaf)
    (hlt : ¬ leafPower leaf - t < b.totalGenerated - t) :
    bestStep t (some b) leaf = some b := by
  unfold bestStep
  rw [if_pos h]
  exact if_neg hlt

lemma bestStep_cases (t : ℚ) (acc : Option BestResult) (leaf : List AssignmentT) :
    (¬ t - 1 / 100 ≤ leafPower leaf ∧ bestStep t acc leaf = acc) ∨
    (t - 1 / 100 ≤ leafPower leaf ∧ bestStep t acc leaf = some ⟨leafPower leaf, leaf⟩ ∧
      ∀ b, acc = some b → leafPower leaf < b.totalGenerated) ∨
    (t - 1 / 100 ≤ leafPower leaf ∧
      ∃ b, acc = some b ∧ bestStep t acc leaf = some b ∧
        b.totalGenerated ≤ leafPower leaf) := by
  by_cases hfeas : t - 1 / 100 ≤ leafPower leaf
  · cases acc with
    | none =>
      refine Or.inr (Or.inl ⟨hfeas, bestStep_none_of_feas t leaf hfeas, ?_⟩)
      rintro b hb
      cases hb
    | some b =>
      by_cases hlt : leafPower leaf - t < b.totalGenerated - t
      · refine Or.inr (Or.inl ⟨hfeas, bestStep_some_of_feas_lt t b leaf hfeas hlt, ?_⟩)
        rintro b0 hb0
        cases hb0
        linarith
      · refine Or.inr (Or.inr ⟨hfeas, b, rfl,
          bestStep_some_of_feas_ge t b leaf hfeas hlt, ?_⟩)
        linarith [not_lt.mp hlt]
  · exact Or.inl ⟨hfeas, bestStep_of_not_feas t acc leaf hfeas⟩

lemma foldl_bestStep_eq_none (t : ℚ) (leaves : List (List AssignmentT)) :
    ∀ acc, leaves.foldl (bestStep t) acc = none ↔
      acc = none ∧ ∀ leaf ∈ leaves, leafPower leaf < t - 1 / 100 := by
  induction leaves with
  | nil => simp
  | cons x xs ih =>
    intro acc
    rw [List.foldl_cons, ih]
    have hstep : bestStep t acc x = none ↔ acc = none ∧ leafPower x < t - 1 / 100 := by
      rcases bestStep_cases t acc x with ⟨hf, he⟩ | ⟨hf, he, -⟩ | ⟨hf, b, hb, he, -⟩
      · rw [he]
        push_neg at hf
        exact ⟨fun h => ⟨h, hf⟩, fun h => h.1⟩
      · rw [he]
        constructor
        · intro h
          cases h
        · rintro ⟨-, hlt⟩
          exact absurd hf (not_le.mpr hlt)
      · rw [he, hb]
        constructor
        · intro h
          cases h
        · rintro ⟨h, -⟩
          cases h
    rw [hstep]
    constructor
    · rintro ⟨⟨h1, h2⟩, h3⟩
      refine ⟨h1, fun leaf hl => ?_⟩
      rcases List.mem_cons.mp hl with rfl | hl2
      · exact h2
      · exact h3 leaf hl2
    · rintro ⟨h1, h2⟩
      exact ⟨⟨h1, h2 x (List.mem_cons_self x xs)⟩,
        fun leaf hl => h2 leaf (List.mem_cons_of_mem x hl)⟩

lemma foldl_bestStep_spec (t : ℚ) (leaves : List (List AssignmentT)) :
    ∀ acc r,
      (∀ b, acc = some b →
        b.totalGenerated = leafPower b.batteries ∧ t - 1 / 100 ≤ b.totalGenerated) →
      leaves.foldl (bestStep t) acc = some r →
      (r.totalGenerated = leafPower r.batteries ∧
       t - 1 / 100 ≤ r.totalGenerated ∧
       (acc = some r ∨ r.batteries ∈ leaves) ∧
       (∀ leaf ∈ leaves, t - 1 / 100 ≤ leafPower leaf →
          r.totalGenerated ≤ leafPower leaf) ∧
       (∀ b, acc = some b → r.totalGenerated ≤ b.totalGenerated)) := by
  induction leaves with
  | nil =>
    intro acc r hacc h
    simp only [List.foldl_nil] at h
    rcases hacc r h with ⟨h1, h2⟩
    refine ⟨h1, h2, Or.inl h, by simp, fun b hb => ?_⟩
    rw [h] at hb
    cases hb
    exact le_refl _
  | cons x xs ih =>
    intro acc r hacc h
    rw [List.foldl_cons] at h
    rcases bestStep_cases t acc x with ⟨hf, he⟩ | ⟨hf, he, hrepl⟩ | ⟨hf, b, hb, he, hble⟩
    · rw [he] at h
      rcases ih acc r hacc h with ⟨h1, h2, h3, h4, h5⟩
      refine ⟨h1, h2, ?_, ?_, h5⟩
      · rcases h3 with h3 | h3
        · exact Or.inl h3
        · exact Or.inr (List.mem_cons_of_mem x h3)
      · intro leaf hl hfl
        rcases List.mem_cons.mp hl with rfl | hl2
        · exact absurd hfl hf
        · exact h4 leaf hl2 hfl
    · rw [he] at h
      have hacc2 : ∀ b, (some (⟨leafPower x, x⟩ : BestResult)) = some b →
          b.totalGenerated = leafPower b.batteries ∧ t - 1 / 100 ≤ b.totalGenerated := by
        rintro b hb
        cases hb
        exact ⟨rfl, hf⟩
      rcases ih _ r hacc2 h with ⟨h1, h2, h3, h4, h5⟩
      have hrx : r.totalGenerated ≤ leafPower x := h5 _ rfl
      refine ⟨h1, h2, ?_, ?_, ?_⟩
      · rcases h3 with h3 | h3
        · cases h3
          exact Or.inr (List.mem_cons_self x xs)
        · exact Or.inr (List.mem_cons_of_mem x h3)
      · intro leaf hl hfl
        rcases List.mem_cons.mp hl with rfl | hl2
        · exact hrx
        · exact h4 leaf hl2 hfl
      · intro b0 hb0
        exact le_trans hrx (le_of_lt (hrepl b0 hb0))
    · rw [he] at h
      have hacc2 : ∀ b0, (some b : Option BestResult) = some b0 →
          b0.totalGenerated = leafPower b0.batteries ∧ t - 1 / 100 ≤ b0.totalGenerated := by
        rintro b0 hb0
        cases hb0
        exact hacc b hb
      rcases ih _ r hacc2 h with ⟨h1, h2, h3, h4, h5⟩
      have hrb : r.totalGenerated ≤ b.totalGenerated := h5 _ rfl
      refine ⟨h1, h2, ?_, ?_, ?_⟩
      · rcases h3 with h3 | h3
        · cases h3
          exact Or.inl hb
        · exact Or.inr (List.mem_cons_of_mem x h3)
      · intro leaf hl hfl
        rcases List.mem_cons.mp hl with rfl | hl2
        · exact le_trans hrb hble
        · exact h4 leaf hl2 hfl
      · intro b0 hb0
        rw [hb] at hb0
        cases hb0
        exact hrb

/-- C1: for every non-empty ratio list and non-empty battery-type list,
`findBestVariableAssignment` ranges over all `|batteryTypes|^|ratios|`
combinations (one battery type per ratio, repetition allowed, each entry
carrying `dutyCycle = min(1, R * ratio.value / consumeRate)` and
`power = batteryType.power * dutyCycle`), returns a feasible
(`totalPower >= targetPower - 0.01`) combination of minimum excess
`totalPower - targetPower`, and returns `null` (`none`) exactly when no
combination is feasible. -/
theorem claim_C1_findBestVariableAssignment_optimal
    (ratios : List RatioT) (batteryTypes : List BatteryType) (targetPower R : ℚ)
    (hr : ratios ≠ []) (ht : batteryTypes ≠ []) :
    ((assignLeaves R batteryTypes ratios).length = batteryTypes.length ^ ratios.length) ∧
    (∀ leaf ∈ assignLeaves R batteryTypes ratios,
        leaf.map (fun a => a.ratio) = ratios ∧
        ∀ a ∈ leaf, a.typeData ∈ batteryTypes ∧
          a.dutyCycle = min 1 (R * a.ratio.value / a.typeData.consume) ∧
          a.power = a.typeData.power * a.dutyCycle) ∧
    (findBestVariableAssignment ratios batteryTypes targetPower R = none ↔
        ∀ leaf ∈ assignLeaves R batteryTypes ratios,
          leafPower leaf < targetPower - 1 / 100) ∧
    (∀ r, findBestVariableAssignment ratios batteryTypes targetPower R = some r →
        r.batteries ∈ assignLeaves R batteryTypes ratios ∧
        r.totalGenerated = leafPower r.batteries ∧
        targetPower - 1 / 100 ≤ r.totalGenerated ∧
        ∀ leaf ∈ assignLeaves R batteryTypes ratios,
          targetPower - 1 / 100 ≤ leafPower leaf →
          r.totalGenerated - targetPower ≤ leafPower leaf - targetPower) := by
  refine ⟨length_assignLeaves R batteryTypes ratios, ?_, ?_, ?_⟩
  · intro leaf hl
    rcases mem_assignLeaves_shape R batteryTypes ratios leaf hl with ⟨hmap, hmem⟩
    refine ⟨hmap, fun a ha => ?_⟩
    rcases hmem a ha with ⟨hts, hmk⟩
    refine ⟨hts, ?_, ?_⟩
    · rw [hmk]
      simp [mkAssignment]
    · rw [hmk]
      simp [mkAssignment]
  · unfold findBestVariableAssignment
    rw [foldl_bestStep_eq_none targetPower _ none]
    simp
  · intro r hsome
    unfold findBestVariableAssignment at hsome
    have hspec := foldl_bestStep_spec targetPower _ none r
      (by rintro b hb; cases hb) hsome
    rcases hspec with ⟨h1, h2, h3, h4, -⟩
    rcases h3 with h3 | h3
    · exact Option.noConfusion h3
    · refine ⟨h3, h1, h2, fun leaf hl hf => ?_⟩
      have := h4 leaf hl hf
      linarith

/-- Witness for C1: the theorem applied at one concrete ratio and one concrete
battery type. -/
theorem claim_C1_witness :
    (assignLeaves 1 [⟨"b", 100, 1⟩] [⟨1, "1", ExtInt.fin 0⟩]).length =
      ([(⟨"b", 100, 1⟩ : BatteryType)].length) ^
        ([(⟨1, "1", ExtInt.fin 0⟩ : RatioT)].length) :=
  (claim_C1_findBestVariableAssignment_optimal [⟨1, "1", ExtInt.fin 0⟩] [⟨"b", 100, 1⟩]
    100 1 (by decide) (by decide)).1

/-! ### Combination-search lemmas -/

lemma findBestVariableAssignment_some (ratios : List RatioT) (ts : List BatteryType)
    (t R : ℚ) (r : BestResult)
    (h : findBestVariableAssignment ratios ts t R = some r) :
    r.batteries ∈ assignLeaves R ts ratios ∧
    r.totalGenerated = leafPower r.batteries ∧
    t - 1 / 100 ≤ r.totalGenerated := by
  unfold findBestVariableAssignment at h
  have hspec := foldl_bestStep_spec t _ none r (by rintro b hb; cases hb) h
  rcases hspec with ⟨h1, h2, h3, -, -⟩
  rcases h3 with h3 | h3
  · exact Option.noConfusion h3
  · exact ⟨h3, h1, h2⟩

lemma mem_searchLeaf (p : Params) (n : ℤ) (current : List RatioT) (cand : Candidate)
    (h : cand ∈ searchLeaf p n current) :
    cand.success = true ∧
    cand.batteryCount = n ∧
    cand.batteries.map (fun a => a.ratio) = current ∧
    cand.totalRatio = qsum (current.map (fun r => r.value)) ∧
    cand.totalRatio ≤ 1 + eps10 ∧
    p.D - 1 / 100 ≤ cand.totalPower ∧
    cand.excess = cand.totalPower - p.D := by
  unfold searchLeaf at h
  split at h
  · cases h
  · rename_i hsum
    cases hopt : findBestVariableAssignment current p.batteries (p.D - p.P_base) p.R with
    | none =>
      rw [hopt] at h
      cases h
    | some assignment =>
      rw [hopt] at h
      rcases List.mem_singleton.mp h with rfl
      rcases findBestVariableAssignment_some current p.batteries (p.D - p.P_base) p.R
        assignment hopt with ⟨hmemleaf, -, hfeas⟩
      rcases mem_assignLeaves_shape p.R p.batteries current assignment.batteries hmemleaf
        with ⟨hmap, -⟩
      refine ⟨rfl, rfl, hmap, rfl, not_lt.mp hsum, ?_, rfl⟩
      have hgen : p.D - p.P_base - 1 / 100 ≤ assignment.totalGenerated := hfeas
      show p.D - 1 / 100 ≤ p.P_base + assignment.totalGenerated
      linarith

lemma mem_enum_drop {α : Type} {l : List α} {k : ℕ} {iv : ℕ × α}
    (h : iv ∈ (l.enum).drop k) : k ≤ iv.1 ∧ l[iv.1]? = some iv.2 := by
  rcases List.mem_iff_getElem?.mp h with ⟨j, hj⟩
  rw [List.getElem?_drop] at hj
  rw [List.getElem?_enum] at hj
  cases hx : l[k + j]? with
  | none =>
    rw [hx] at hj
    cases hj
  | some x =>
    rw [hx] at hj
    have hj2 : (k + j, x) = iv := by simpa using hj
    cases hj2
    exact ⟨by omega, by rw [hx]⟩

lemma pairwise_ratioGe_get {usable : List RatioT} (hs : List.Pairwise ratioGe usable)
    {i j : ℕ} {x y : RatioT} (hij : i ≤ j) (hx : usable[i]? = some x)
    (hy : usable[j]? = some y) : ratioGe x y := by
  rcases Nat.eq_or_lt_of_le hij with rfl | hlt
  · rw [hx] at hy
    cases hy
    exact le_refl _
  · rcases List.getElem?_eq_some.mp hx with ⟨hi, hxe⟩
    rcases List.getElem?_eq_some.mp hy with ⟨hj2, hye⟩
    have := (List.pairwise_iff_getElem.mp hs) i j hi hj2 hlt
    rw [hxe, hye] at this
    exact this

lemma searchCombinations_invariant (p : Params) (usable : List RatioT) (n : ℤ)
    (husable : List.Pairwise ratioGe usable) :
    ∀ fuel index current cand,
      List.Pairwise ratioGe current →
      (∀ j x, index ≤ j → usable[j]? = some x → ∀ c ∈ current, ratioGe c x) →
      cand ∈ searchCombinations p usable n fuel index current →
      ∃ sel : List RatioT, List.Pairwise ratioGe sel ∧ cand ∈ searchLeaf p n sel := by
  intro fuel
  induction fuel with
  | zero =>
    intro index current cand h1 h2 h
    exact ⟨current, h1, h⟩
  | succ fuel ih =>
    intro index current cand h1 h2 h
    unfold searchCombinations at h
    split at h
    · cases h
    · rw [List.mem_flatMap] at h
      rcases h with ⟨iv, hiv, h⟩
      split at h
      · cases h
      · rcases mem_enum_drop hiv with ⟨hk, hget⟩
        apply ih iv.1 (current ++ [iv.2]) cand ?_ ?_ h
        · rw [List.pairwise_append]
          refine ⟨h1, List.pairwise_singleton _ _, ?_⟩
          intro c hc x hx
          rcases List.mem_singleton.mp hx with rfl
          exact h2 iv.1 iv.2 hk hget c hc
        · intro j x hij hx c hc
          rcases List.mem_append.mp hc with hc | hc
          · exact h2 j x (le_trans hk hij) hx c hc
          · rcases List.mem_singleton.mp hc with rfl
            exact pairwise_ratioGe_get husable hij hget hx

lemma mem_searchForNBatteries (n : ℤ) (p : Params) (validRatios : List RatioT)
    (hsorted : List.Pairwise ratioGe validRatios) (cand : Candidate)
    (h : cand ∈ searchForNBatteries n p validRatios) :
    ∃ sel : List RatioT, List.Pairwise ratioGe sel ∧ cand ∈ searchLeaf p n sel := by
  unfold searchForNBatteries at h
  split at h
  · cases h
  · have husable : List.Pairwise ratioGe (usableRatios p validRatios) :=
      hsorted.filter _
    refine searchCombinations_invariant p _ n husable n.toNat 0 [] cand
      (List.Pairwise.nil) ?_ h
    intro j x hj hx c hc
    cases hc

/-- C9: in every candidate produced by `searchForNBatteries` (running on the
catalog of `generateValidRatios`), the batteries sequence lists its assigned
ratios in non-increasing order of value. -/
theorem claim_C9_candidate_ratios_nonincreasing (maxDepth : ℕ) (n : ℤ) (p : Params)
    (cand : Candidate)
    (h : cand ∈ searchForNBatteries n p (generateValidRatios maxDepth)) :
    List.Pairwise (fun x y : AssignmentT => y.ratio.value ≤ x.ratio.value) cand.batteries := by
  rcases mem_searchForNBatteries n p _ (sorted_generateValidRatios maxDepth) cand h
    with ⟨sel, hsel, hleaf⟩
  rcases mem_searchLeaf p n sel cand hleaf with ⟨-, -, hmap, -⟩
  have hpw : List.Pairwise ratioGe (cand.batteries.map (fun a => a.ratio)) := by
    rw [hmap]
    exact hsel
  exact List.pairwise_map.mp hpw


/-! ### Ranking lemmas -/

lemma snd_mem_of_mem_enum {α : Type} {l : List α} {tc : ℕ × α} (h : tc ∈ l.enum) :
    tc.2 ∈ l :=
  List.getElem?_mem (List.mem_enum_iff_getElem?.mp h)

lemma mem_sortedByExcess_snd (cands : List Candidate) (tc : ℕ × Candidate)
    (h : tc ∈ sortedByExcess cands) : tc.2 ∈ cands :=
  snd_mem_of_mem_enum ((List.perm_insertionSort excessLe _).mem_iff.mp h)

lemma mem_simpleSorted_mem_sorted (D : ℚ) (cands : List Candidate) (tc : ℕ × Candidate)
    (h : tc ∈ simpleSorted D cands) : tc ∈ sortedByExcess cands := by
  unfold simpleSorted at h
  have hp := (List.perm_insertionSort complexityLe _).mem_iff.mp h
  exact List.mem_of_mem_filter hp

lemma bestPrecisionT_mem (cands : List Candidate) (bp : ℕ × Candidate)
    (h : bestPrecisionT cands = some bp) : bp ∈ sortedByExcess cands := by
  unfold bestPrecisionT at h
  exact List.mem_of_mem_head? h

lemma sortedByExcess_ne_nil (cands : List Candidate) (bp : ℕ × Candidate)
    (h : bestPrecisionT cands = some bp) : sortedByExcess cands ≠ [] := by
  intro hnil
  unfold bestPrecisionT at h
  rw [hnil] at h
  cases h

lemma bestSimpleT_of_precision (D : ℚ) (cands : List Candidate) (bp : ℕ × Candidate)
    (hbp : bestPrecisionT cands = some bp) :
    bestSimpleT D cands =
      some (if (bestSimple0 D cands bp).1 = bp.1 ∧ 1 < (simpleSorted D cands).length
        then (simpleSorted D cands).getD 1 (bestSimple0 D cands bp)
        else bestSimple0 D cands bp) := by
  unfold bestSimpleT
  rw [hbp]

lemma bestSimple0_mem (D : ℚ) (cands : List Candidate) (bp : ℕ × Candidate)
    (hbp : bestPrecisionT cands = some bp) :
    bestSimple0 D cands bp ∈ sortedByExcess cands := by
  unfold bestSimple0
  cases hpool : simpleSorted D cands with
  | cons s rest =>
    apply mem_simpleSorted_mem_sorted D cands
    rw [hpool]
    exact List.mem_cons_self s rest
  | nil =>
    have hnn : sortedByExcess cands ≠ [] := sortedByExcess_ne_nil cands bp hbp
    have hperm := List.perm_insertionSort complexityOnlyLe (sortedByExcess cands)
    cases hfb : List.insertionSort complexityOnlyLe (sortedByExcess cands) with
    | nil =>
      rw [hfb] at hperm
      exact absurd hperm.symm.eq_nil hnn
    | cons f fs =>
      rw [List.headD_cons]
      rw [hfb] at hperm
      exact hperm.mem_iff.mp (List.mem_cons_self f fs)

lemma bestSimpleT_mem (D : ℚ) (cands : List Candidate) (bs : ℕ × Candidate)
    (h : bestSimpleT D cands = some bs) : bs ∈ sortedByExcess cands := by
  cases hbp : bestPrecisionT cands with
  | none =>
    unfold bestSimpleT at h
    rw [hbp] at h
    cases h
  | some bp =>
    rw [bestSimpleT_of_precision D cands bp hbp] at h
    have hbs := Option.some_inj.mp h
    by_cases hc : (bestSimple0 D cands bp).1 = bp.1 ∧ 1 < (simpleSorted D cands).length
    · rw [if_pos hc] at hbs
      have hget : (simpleSorted D cands)[1]? =
          some ((simpleSorted D cands).getD 1 (bestSimple0 D cands bp)) := by
        rw [List.getD_eq_getElem?_getD]
        rcases hx : (simpleSorted D cands)[1]? with - | x
        · rw [List.getElem?_eq_none_iff] at hx
          have hlen := hc.2
          omega
        · rfl
      rw [hbs] at hget
      exact mem_simpleSorted_mem_sorted D cands bs (List.getElem?_mem hget)
    · rw [if_neg hc] at hbs
      rw [← hbs]
      exact bestSimple0_mem D cands bp hbp

lemma bestBalancedT_of (D : ℚ) (cands : List Candidate) (bp bs : ℕ × Candidate)
    (hbp : bestPrecisionT cands = some bp) (hbs : bestSimpleT D cands = some bs) :
    bestBalancedT D cands =
      (sortedByExcess cands).find?
        (fun c => decide (c.1 ≠ bp.1 ∧ c.1 ≠ bs.1 ∧
          (1 < |c.2.excess - bp.2.excess| ∨ c.2.batteryCount ≠ bp.2.batteryCount))) := by
  unfold bestBalancedT
  rw [hbp, hbs]

lemma bestBalancedT_mem (D : ℚ) (cands : List Candidate) (bb : ℕ × Candidate)
    (h : bestBalancedT D cands = some bb) : bb ∈ sortedByExcess cands := by
  cases hbp : bestPrecisionT cands with
  | none =>
    unfold bestBalancedT at h
    rw [hbp] at h
    cases h
  | some bp =>
    cases hbs : bestSimpleT D cands with
    | none =>
      unfold bestBalancedT at h
      rw [hbp, hbs] at h
      cases h
    | some bs =>
      rw [bestBalancedT_of D cands bp bs hbp hbs] at h
      exact List.mem_of_find?_eq_some h

lemma rankSolutions_of (D : ℚ) (cands : List Candidate) (bp bs : ℕ × Candidate)
    (hbp : bestPrecisionT cands = some bp) (hbs : bestSimpleT D cands = some bs) :
    rankSolutions D cands =
      (if bs.1 = bp.1 then labeledSimple bp.2 else labeledPrecision bp.2) ::
        ((if bs.1 = bp.1 then [] else [labeledSimple bs.2]) ++
          (match bestBalancedT D cands with
           | some bb =>
             if bb.1 ≠ bp.1 ∧ bb.1 ≠ bs.1 then [labeledBalanced bb.2] else []
           | none => [])) := by
  unfold rankSolutions
  rw [hbp, hbs]

lemma rankSolutions_cand_mem (D : ℚ) (cands : List Candidate) (s : Labeled)
    (h : s ∈ rankSolutions D cands) : s.cand ∈ cands := by
  cases hbp : bestPrecisionT cands with
  | none =>
    unfold rankSolutions at h
    rw [hbp] at h
    cases h
  | some bp =>
    cases hbs : bestSimpleT D cands with
    | none =>
      unfold rankSolutions at h
      rw [hbp, hbs] at h
      cases h
    | some bs =>
      rw [rankSolutions_of D cands bp bs hbp hbs] at h
      have hbpm : bp.2 ∈ cands :=
        mem_sortedByExcess_snd cands bp (bestPrecisionT_mem cands bp hbp)
      have hbsm : bs.2 ∈ cands :=
        mem_sortedByExcess_snd cands bs (bestSimpleT_mem D cands bs hbs)
      rcases List.mem_cons.mp h with rfl | h2
      · split
        · exact hbpm
        · exact hbpm
      · rcases List.mem_append.mp h2 with h3 | h3
        · by_cases hc : bs.1 = bp.1
          · rw [if_pos hc] at h3
            cases h3
          · rw [if_neg hc] at h3
            rcases List.mem_singleton.mp h3 with rfl
            exact hbsm
        · cases hbb : bestBalancedT D cands with
          | none =>
            rw [hbb] at h3
            cases h3
          | some bb =>
            rw [hbb] at h3
            have h4 : s ∈ (if bb.1 ≠ bp.1 ∧ bb.1 ≠ bs.1
                then [labeledBalanced bb.2] else []) := h3
            by_cases hc : bb.1 ≠ bp.1 ∧ bb.1 ≠ bs.1
            · rw [if_pos hc] at h4
              rcases List.mem_singleton.mp h4 with rfl
              exact mem_sortedByExcess_snd cands bb (bestBalancedT_mem D cands bb hbb)
            · rw [if_neg hc] at h4
              cases h4

/-! ### Driver lemmas and claims C2, C6, C8 -/

lemma collectedCandidates_mem (p : Params) (vr : List RatioT) (cand : Candidate)
    (h : cand ∈ collectedCandidates p vr) :
    ∃ n : ℤ, cand ∈ searchForNBatteries n p vr := by
  simp only [collectedCandidates, List.mem_flatMap] at h
  rcases h with ⟨n, -, hn⟩
  exact ⟨n, hn⟩

lemma candidate_bounds (maxDepth : ℕ) (n : ℤ) (p : Params) (cand : Candidate)
    (h : cand ∈ searchForNBatteries n p (generateValidRatios maxDepth)) :
    qsum (cand.batteries.map (fun a => a.ratio.value)) ≤ 1 + eps10 ∧
    p.D - 1 / 100 ≤ cand.totalPower := by
  rcases mem_searchForNBatteries n p _ (sorted_generateValidRatios maxDepth) cand h
    with ⟨sel, -, hleaf⟩
  rcases mem_searchLeaf p n sel cand hleaf with ⟨-, -, hmap, htr, hle, hpw, -⟩
  refine ⟨?_, hpw⟩
  have heq : qsum (cand.batteries.map (fun a => a.ratio.value)) = cand.totalRatio := by
    rw [htr, ← hmap, List.map_map]
    rfl
  rw [heq]
  exact hle

/-- C2: every solution returned in the success case of
`searchOptimalCombination` has assignment ratio values summing to at most
`1 + 1e-9` and total power at least `D - 0.01`. -/
theorem claim_C2_success_solution_invariants (p : Params) (sols : List Labeled)
    (h : searchOptimalCombination p = SearchResult.success sols) :
    ∀ s ∈ sols,
      qsum (s.cand.batteries.map (fun a => a.ratio.value)) ≤ 1 + 1 / 1000000000 ∧
      p.D - 1 / 100 ≤ s.cand.totalPower := by
  unfold searchOptimalCombination at h
  split at h
  · cases h
  · split at h
    · cases h
    · injection h with h
      subst h
      intro s hs
      have hc := rankSolutions_cand_mem _ _ s hs
      rcases collectedCandidates_mem p _ s.cand hc with ⟨n, hn⟩
      have hb := candidate_bounds p.maxDepth n p s.cand hn
      refine ⟨le_trans hb.1 ?_, hb.2⟩
      unfold eps10
      norm_num

/-- C6: when the deficit is non-positive (`D <= P_base`),
`searchOptimalCombination` short-circuits to the single zero-battery base
solution with `batteryCount = 0`, empty batteries, `excess = P_base - D` and
`complexity = 0`; no combination search runs. -/
theorem claim_C6_base_short_circuit (p : Params) (h : p.D ≤ p.P_base) :
    searchOptimalCombination p =
      SearchResult.base
        ⟨"base", "无需电池", "基地发电已满足需求", 0, [], p.P_base, p.P_base - p.D, 0⟩ := by
  unfold searchOptimalCombination
  rw [if_pos (by linarith)]

/-- Witness for C6 at the spec scenario `D = 100, P_base = 200`. -/
theorem claim_C6_witness :
    searchOptimalCombination ⟨100, 200, [⟨"b", 1100, 1 / 40⟩], 1, 5⟩ =
      SearchResult.base
        ⟨"base", "无需电池", "基地发电已满足需求", 0, [], 200, 200 - 100, 0⟩ :=
  claim_C6_base_short_circuit ⟨100, 200, [⟨"b", 1100, 1 / 40⟩], 1, 5⟩ (by norm_num)

lemma rankSolutions_ne_nil (D : ℚ) (cands : List Candidate) (h : cands ≠ []) :
    rankSolutions D cands ≠ [] := by
  have henum : cands.enum ≠ [] := by
    intro he
    apply h
    have hlen := congrArg List.length he
    rw [List.enum_length] at hlen
    exact List.length_eq_zero.mp hlen
  have hsort : sortedByExcess cands ≠ [] := by
    intro hs
    apply henum
    have hp := List.perm_insertionSort excessLe cands.enum
    unfold sortedByExcess at hs
    rw [hs] at hp
    exact hp.symm.eq_nil
  cases hsx : sortedByExcess cands with
  | nil => exact absurd hsx hsort
  | cons b rest =>
    have hbp : bestPrecisionT cands = some b := by
      unfold bestPrecisionT
      rw [hsx]
      rfl
    rw [rankSolutions_of D cands b _ hbp (bestSimpleT_of_precision D cands b hbp)]
    exact List.cons_ne_nil _ _

/-- C8: when `D > P_base` and no battery count in the searched range yields a
candidate, `searchOptimalCombination` returns the structured failure value
(message plus empty `solutions`); moreover no input ever produces an empty
success value. -/
theorem claim_C8_structured_failure (p : Params) (h1 : p.P_base < p.D)
    (h2 : collectedCandidates p (generateValidRatios p.maxDepth) = []) :
    searchOptimalCombination p = SearchResult.failure "无法找到满足需求的方案" [] ∧
    ∀ q : Params, ∀ sols, searchOptimalCombination q = SearchResult.success sols →
      sols ≠ [] := by
  constructor
  · unfold searchOptimalCombination
    rw [if_neg (by push_neg; linarith), if_pos (by rw [h2]; rfl)]
  · intro q sols hs
    unfold searchOptimalCombination at hs
    split at hs
    · cases hs
    · split at hs
      · cases hs
      · rename_i hne
        injection hs with hs
        rw [← hs]
        apply rankSolutions_ne_nil
        intro hnil
        rw [hnil] at hne
        exact hne rfl

/-- Witness for C8: a deficit far larger than the fuel-bounded search range
can cover, so the loop range is empty and the search fails. -/
theorem claim_C8_witness :
    searchOptimalCombination ⟨1000, 0, [⟨"t", 1, 1⟩], 1, 5⟩ =
      SearchResult.failure "无法找到满足需求的方案" [] :=
  (claim_C8_structured_failure ⟨1000, 0, [⟨"t", 1, 1⟩], 1, 5⟩ (by norm_num)
    (by with_unfolding_all decide)).1

/-! ### Network-synthesis lemmas -/

lemma batteryFracs_nil : batteryFracs [] = [] := rfl

lemma batteryFracs_append (l1 l2 : List DescLine) :
    batteryFracs (l1 ++ l2) = batteryFracs l1 ++ batteryFracs l2 :=
  List.filterMap_append l1 l2 lineFrac

lemma batteryFracs_returnFlow (ind : ℕ) (l : List DescLine) :
    batteryFracs (DescLine.returnFlow ind :: l) = batteryFracs l := rfl

lemma batteryFracs_splitterHeader (ind o : ℕ) (l : List DescLine) :
    batteryFracs (DescLine.splitterHeader ind o :: l) = batteryFracs l := rfl

lemma batteryFracs_outletShare (ind pos denom : ℕ) (last : Bool) (l : List DescLine) :
    batteryFracs (DescLine.outletShare ind pos denom last :: l) = batteryFracs l := rfl

lemma batteryFracs_outletOpen (ind pos : ℕ) (last : Bool) (l : List DescLine) :
    batteryFracs (DescLine.outletOpen ind pos last :: l) = batteryFracs l := rfl

lemma batteryFracs_outletReturn (ind pos : ℕ) (last : Bool) (l : List DescLine) :
    batteryFracs (DescLine.outletReturn ind pos last :: l) = batteryFracs l := rfl

lemma batteryFracs_returnArrow (ind : ℕ) (l : List DescLine) :
    batteryFracs (DescLine.returnArrow ind :: l) = batteryFracs l := rfl

lemma batteryFracs_batteryDirect (ind : ℕ) (frac : String) (l : List DescLine) :
    batteryFracs (DescLine.batteryDirect ind frac :: l) = frac :: batteryFracs l := rfl

lemma batteryFracs_batteryLeaf (ind : ℕ) (frac : String) (l : List DescLine) :
    batteryFracs (DescLine.batteryLeaf ind frac :: l) = frac :: batteryFracs l := rfl

lemma batteryFracs_outletLines (outlets targetOutlet : ℕ) :
    ∀ k i c, outlets - i ≤ k →
      batteryFracs (outletLines outlets targetOutlet i c).1 = [] := by
  intro k
  induction k with
  | zero =>
    intro i c hk
    unfold outletLines
    rw [dif_neg (by omega)]
    rfl
  | succ k ih =>
    intro i c hk
    unfold outletLines
    by_cases hi : i < outlets
    · rw [dif_pos hi]
      by_cases ht : i = targetOutlet
      · rw [if_pos ht]
        rw [batteryFracs_outletOpen]
        exact ih (i + 1) (c + 1) (by omega)
      · rw [if_neg ht]
        rw [batteryFracs_outletReturn]
        exact ih (i + 1) c (by omega)
    · rw [dif_neg hi]
      rfl

lemma findSplitSequence_all_splitter (v flow : ℚ) (s : SeqStep)
    (h : s ∈ findSplitSequence v flow) : ∃ o t, s = SeqStep.splitter o t := by
  unfold findSplitSequence at h
  cases hf : expSearchPairs.find? (expMatches v) with
  | none =>
    rw [hf] at h
    cases h
  | some p =>
    rw [hf] at h
    rcases List.mem_append.mp h with h2 | h2
    · rw [List.eq_of_mem_replicate h2]
      exact ⟨3, 0, rfl⟩
    · rw [List.eq_of_mem_replicate h2]
      exact ⟨2, 0, rfl⟩

lemma branchFold_fracs (frac : String) :
    ∀ seq : List SeqStep, (∀ s ∈ seq, ∃ o t, s = SeqStep.splitter o t) →
      ∀ acc : List DescLine × ℕ,
        batteryFracs ((seq.foldl (branchStep frac) acc).1) = batteryFracs acc.1 := by
  intro seq
  induction seq with
  | nil => intro _ acc; rfl
  | cons s rest ih =>
    intro hall acc
    rw [List.foldl_cons]
    rw [ih (fun x hx => hall x (List.mem_cons_of_mem s hx))]
    rcases hall s (List.mem_cons_self s rest) with ⟨o, t, hs⟩
    rw [hs]
    unfold branchStep
    rw [batteryFracs_append, batteryFracs_splitterHeader,
      batteryFracs_outletLines o t o 0 acc.2 (by omega)]
    simp

lemma batteryFracs_constructBranchLines (ratio : RatioT) (inputFlow : ℚ) (depth : ℕ) :
    batteryFracs (constructBranchLines ratio inputFlow depth) = [ratio.fraction] := by
  unfold constructBranchLines
  split
  · rfl
  · rw [batteryFracs_append,
      branchFold_fracs ratio.fraction _
        (fun s hs => findSplitSequence_all_splitter _ _ s hs) ([], depth)]
    rfl

lemma chunksOf_join (k : ℕ) (hk : k ≠ 0) :
    ∀ m, ∀ l : List RatioT, l.length ≤ m → (chunksOf k l).flatten = l := by
  intro m
  induction m with
  | zero =>
    intro l hl
    have h0 : l = [] := List.length_eq_zero.mp (by omega)
    subst h0
    unfold chunksOf
    rw [dif_pos rfl]
    rfl
  | succ m ih =>
    intro l hl
    unfold chunksOf
    by_cases h0 : l = []
    · rw [dif_pos h0]
      rw [h0]
      rfl
    · rw [dif_neg h0, dif_neg hk]
      rw [List.flatten_cons]
      rw [ih (l.drop k) (by
        rw [List.length_drop]
        have h1 : l.length ≠ 0 := fun hz => h0 (List.length_eq_zero.mp hz)
        omega)]
      exact List.take_append_drop k l

lemma chunksOf_mem (k : ℕ) (hk : k ≠ 0) :
    ∀ m, ∀ l : List RatioT, l.length ≤ m →
      ∀ g ∈ chunksOf k l, g ≠ [] ∧ g.length ≤ k := by
  intro m
  induction m with
  | zero =>
    intro l hl g hg
    have h0 : l = [] := List.length_eq_zero.mp (by omega)
    subst h0
    unfold chunksOf at hg
    rw [dif_pos rfl] at hg
    cases hg
  | succ m ih =>
    intro l hl g hg
    unfold chunksOf at hg
    by_cases h0 : l = []
    · rw [dif_pos h0] at hg
      cases hg
    · rw [dif_neg h0, dif_neg hk] at hg
      rcases List.mem_cons.mp hg with rfl | hg2
      · constructor
        · intro hte
          apply h0
          have h1 := congrArg List.length hte
          rw [List.length_take] at h1
          simp only [List.length_nil] at h1
          have h2 : l.length ≠ 0 := fun hz => h0 (List.length_eq_zero.mp hz)
          have h3 : l.length = 0 := by omega
          exact List.length_eq_zero.mp h3
        · rw [List.length_take]
          omega
      · exact ih (l.drop k) (by
          rw [List.length_drop]
          have h1 : l.length ≠ 0 := fun hz => h0 (List.length_eq_zero.mp hz)
          omega) g hg2

lemma flatMap_congr_mem {α β : Type} (l : List α) (F G : α → List β)
    (h : ∀ x ∈ l, F x = G x) : l.flatMap F = l.flatMap G := by
  induction l with
  | nil => rfl
  | cons x xs ih =>
    rw [List.flatMap_cons, List.flatMap_cons,
      h x (List.mem_cons_self x xs),
      ih (fun y hy => h y (List.mem_cons_of_mem x hy))]

lemma enumFrom_flatMap_snd {α β : Type} (h : α → List β) :
    ∀ (l : List α) (n : ℕ),
      (l.enumFrom n).flatMap (fun ig => h ig.2) = l.flatMap h := by
  intro l
  induction l with
  | nil => intro n; rfl
  | cons x xs ih =>
    intro n
    rw [List.enumFrom_cons, List.flatMap_cons, List.flatMap_cons, ih (n + 1)]

lemma enum_flatMap_snd {α β : Type} (h : α → List β) (l : List α) :
    l.enum.flatMap (fun ig => h ig.2) = l.flatMap h :=
  enumFrom_flatMap_snd h l 0

lemma batteryFracs_flatMap {α : Type} (l : List α) (F : α → List DescLine) :
    batteryFracs (l.flatMap F) = l.flatMap (fun x => batteryFracs (F x)) := by
  induction l with
  | nil => rfl
  | cons x xs ih =>
    rw [List.flatMap_cons, List.flatMap_cons, batteryFracs_append, ih]

lemma batteryFracs_map_outletReturn (depth : ℕ) (l : List ℕ) :
    batteryFracs (l.map (fun i => DescLine.outletReturn depth (i + 1) true)) = [] := by
  induction l with
  | nil => rfl
  | cons x xs ih =>
    rw [List.map_cons, batteryFracs_outletReturn]
    exact ih

set_option maxHeartbeats 2000000 in
lemma batteryFracs_buildGo :
    ∀ fuel (ratios : List RatioT), ratios.length ≤ fuel →
      ∀ (flow : ℚ) (depth : ℕ),
        batteryFracs (buildNetworkTreeGo fuel ratios flow depth) =
          ratios.map (fun r => r.fraction) := by
  intro fuel
  induction fuel with
  | zero =>
    intro ratios h flow depth
    have h0 : ratios = [] := List.length_eq_zero.mp (by omega)
    subst h0
    rfl
  | succ fuel ih =>
    intro ratios h flow depth
    match ratios with
    | [] => rfl
    | [r] => exact batteryFracs_constructBranchLines r flow depth
    | [r0, r1] =>
      simp only [buildNetworkTreeGo, buildDispatch]
      rw [batteryFracs_splitterHeader, batteryFracs_outletShare, batteryFracs_append,
        batteryFracs_constructBranchLines, batteryFracs_outletShare, batteryFracs_append,
        batteryFracs_constructBranchLines, batteryFracs_outletReturn, batteryFracs_nil]
      rfl
    | [r0, r1, r2] =>
      simp only [buildNetworkTreeGo, buildDispatch]
      rw [batteryFracs_splitterHeader, batteryFracs_outletShare, batteryFracs_append,
        batteryFracs_constructBranchLines, batteryFracs_outletShare, batteryFracs_append,
        batteryFracs_constructBranchLines, batteryFracs_outletShare,
        batteryFracs_constructBranchLines]
      rfl
    | r0 :: r1 :: r2 :: r3 :: rest =>
      simp only [buildNetworkTreeGo, buildDispatch]
      rw [batteryFracs_splitterHeader, batteryFracs_append, batteryFracs_flatMap,
        batteryFracs_map_outletReturn, List.append_nil]
      have hk : ((r0 :: r1 :: r2 :: r3 :: rest).length + 2) / 3 ≠ 0 := by
        simp only [List.length_cons]
        omega
      refine Eq.trans
        (flatMap_congr_mem _ _ (fun ig => ig.2.map (fun r => r.fraction)) ?_) ?_
      · intro ig hig
        by_cases hg : ig.2 = []
        · rw [if_pos hg]
          simp only [hg]
          rfl
        · rw [if_neg hg, batteryFracs_outletShare]
          apply ih
          have hmem := snd_mem_of_mem_enum hig
          have hbound := (chunksOf_mem _ hk _ _ (le_refl _) ig.2 hmem).2
          simp only [List.length_cons] at hbound h ⊢
          omega
      · rw [enum_flatMap_snd, List.flatMap_def, ← List.map_flatten,
          chunksOf_join _ hk _ _ (le_refl _)]

lemma batteryFracs_buildNetworkTreeLines (ratios : List RatioT) (flow : ℚ) (depth : ℕ) :
    batteryFracs (buildNetworkTreeLines ratios flow depth) =
      ratios.map (fun r => r.fraction) :=
  batteryFracs_buildGo ratios.length ratios (le_refl _) flow depth

/-! ### Remaining claims: the network round-trip (C3), the C4 scenario, the
balanced scan order (C7), the label overwrite (C10), and the witnesses of
C2 and C9 -/

lemma find?_first {α : Type} (p : α → Bool) :
    ∀ (l : List α) (a : α), l.find? p = some a →
      p a = true ∧ ∃ pre post, l = pre ++ a :: post ∧ ∀ x ∈ pre, p x = false := by
  intro l
  induction l with
  | nil =>
    intro a h
    cases h
  | cons x xs ih =>
    intro a h
    cases hpx : p x with
    | true =>
      rw [List.find?_cons_of_pos xs hpx] at h
      have hxa := Option.some_inj.mp h
      subst hxa
      exact ⟨hpx, [], xs, rfl, fun y hy => absurd hy (List.not_mem_nil y)⟩
    | false =>
      rw [List.find?_cons_of_neg xs (by rw [hpx]; exact Bool.false_ne_true)] at h
      rcases ih a h with ⟨hpa, pre, post, hl, hpre⟩
      refine ⟨hpa, x :: pre, post, by rw [hl, List.cons_append], ?_⟩
      intro y hy
      rcases List.mem_cons.mp hy with rfl | hy2
      · exact hpx
      · exact hpre y hy2

lemma bestPrecisionT_min (cands : List Candidate) (bp : ℕ × Candidate)
    (h : bestPrecisionT cands = some bp) :
    ∀ c ∈ cands, bp.2.excess ≤ c.excess := by
  intro c hc
  rcases List.getElem?_of_mem hc with ⟨i, hi⟩
  have henum : (i, c) ∈ cands.enum := List.mem_enum_iff_getElem?.mpr hi
  have hmem : (i, c) ∈ sortedByExcess cands :=
    (List.perm_insertionSort excessLe cands.enum).mem_iff.mpr henum
  have hsorted : List.Sorted excessLe (sortedByExcess cands) :=
    List.sorted_insertionSort excessLe cands.enum
  cases hsx : sortedByExcess cands with
  | nil =>
    rw [hsx] at hmem
    cases hmem
  | cons b rest =>
    have hb : b = bp := by
      unfold bestPrecisionT at h
      rw [hsx] at h
      exact Option.some_inj.mp h
    subst hb
    rw [hsx] at hmem hsorted
    rcases List.mem_cons.mp hmem with heq2 | hrest
    · have hcb : c = b.2 := by rw [← heq2]
      rw [hcb]
    · exact (List.pairwise_cons.mp hsorted).1 (i, c) hrest

lemma buildNetworkTree_nodes_getD (ratios : List RatioT) (flow : ℚ) (d : ℕ) :
    ((buildNetworkTree ratios flow d).nodes).getD [] = [] := by
  unfold buildNetworkTree
  match ratios with
  | [] => rfl
  | [_] => rfl
  | _ :: _ :: _ => rfl

/-- C3 (amended): `constructSplitterNetwork` never builds the claimed node
tree — for every successful solution with a non-zero battery count the
returned `nodes` value holds zero battery leaves (the source's `nodes` array
is returned unfilled, and the single-battery path returns an object with no
`nodes` field at all) — while the textual description does contain exactly
the solution's battery leaves: its battery-leaf fraction strings are the
assignments' fraction strings in order. -/
theorem claim_C3_network_description (solution : Candidate)
    (h1 : solution.success = true) (h2 : solution.batteryCount ≠ 0) :
    nodesBatteryCount (((constructSplitterNetwork solution).nodes).getD []) = 0 ∧
    (constructSplitterNetwork solution).description =
      render (buildNetworkTreeLines (solution.batteries.map (fun b => b.ratio))
        (if solution.totalRatio = 0
          then qsum ((solution.batteries.map (fun b => b.ratio)).map (fun r => r.value))
          else solution.totalRatio) 0) ∧
    ∀ (flow : ℚ) (depth : ℕ),
      batteryFracs
          (buildNetworkTreeLines (solution.batteries.map (fun b => b.ratio)) flow depth) =
        solution.batteries.map (fun b => b.ratio.fraction) := by
  have hcond : ¬(solution.success = false ∨ solution.batteryCount = 0) := by
    intro hor
    rcases hor with hf | hz
    · rw [h1] at hf
      cases hf
    · exact h2 hz
  unfold constructSplitterNetwork
  rw [if_neg hcond]
  refine ⟨?_, rfl, ?_⟩
  · rw [buildNetworkTree_nodes_getD]
    rfl
  · intro flow depth
    rw [batteryFracs_buildNetworkTreeLines, List.map_map]
    rfl

/-- Witness for C3 at the concrete two-battery candidate. -/
theorem claim_C3_witness :
    nodesBatteryCount (((constructSplitterNetwork candTwoHalves).nodes).getD []) = 0 ∧
    (constructSplitterNetwork candTwoHalves).description =
      render (buildNetworkTreeLines (candTwoHalves.batteries.map (fun b => b.ratio))
        (if candTwoHalves.totalRatio = 0
          then qsum ((candTwoHalves.batteries.map (fun b => b.ratio)).map (fun r => r.value))
          else candTwoHalves.totalRatio) 0) ∧
    ∀ (flow : ℚ) (depth : ℕ),
      batteryFracs
          (buildNetworkTreeLines (candTwoHalves.batteries.map (fun b => b.ratio))
            flow depth) =
        candTwoHalves.batteries.map (fun b => b.ratio.fraction) :=
  claim_C3_network_description candTwoHalves rfl (by decide)

/-- Counterexample to C3 as stated: a successful two-battery solution for
which the returned `nodes` value is the empty node list — it does not contain
`batteryCount = 2` battery leaves. -/
theorem claim_C3_counterexample :
    candTwoHalves.batteryCount = 2 ∧
    (constructSplitterNetwork candTwoHalves).nodes = some [] ∧
    nodesBatteryCount (((constructSplitterNetwork candTwoHalves).nodes).getD []) = 0 :=
  ⟨rfl, rfl, rfl⟩

/-- C7 (amended): the balanced pick, when present, is the first candidate of
the excess-sorted array (not the original merge order) that is distinct from
the precision and simple picks and has excess more than `1` away from the
precision pick's or a different battery count; it is `none` exactly when no
sorted candidate qualifies. -/
theorem claim_C7_balanced_first_in_excess_order (D : ℚ) (cands : List Candidate)
    (bp bs : ℕ × Candidate)
    (hbp : bestPrecisionT cands = some bp) (hbs : bestSimpleT D cands = some bs) :
    (∀ bb, bestBalancedT D cands = some bb →
        balancedQualifies bp bs bb = true ∧
        ∃ pre post, sortedByExcess cands = pre ++ bb :: post ∧
          ∀ x ∈ pre, balancedQualifies bp bs x = false) ∧
    (bestBalancedT D cands = none →
        ∀ x ∈ sortedByExcess cands, balancedQualifies bp bs x = false) := by
  have heq : bestBalancedT D cands =
      (sortedByExcess cands).find? (balancedQualifies bp bs) := by
    rw [bestBalancedT_of D cands bp bs hbp hbs]
    rfl
  constructor
  · intro bb h
    rw [heq] at h
    exact find?_first _ _ _ h
  · intro h x hx
    rw [heq] at h
    cases hpx : balancedQualifies bp bs x with
    | false => rfl
    | true => exact absurd hpx (List.find?_eq_none.mp h x hx)

/-- Witness for C7 at the four-candidate list. -/
theorem claim_C7_witness :
    (∀ bb, bestBalancedT 1000 candsC7 = some bb →
        balancedQualifies (2, cexCand 0 100) (3, cexCand 50 10) bb = true ∧
        ∃ pre post, sortedByExcess candsC7 = pre ++ bb :: post ∧
          ∀ x ∈ pre, balancedQualifies (2, cexCand 0 100) (3, cexCand 50 10) x = false) ∧
    (bestBalancedT 1000 candsC7 = none →
        ∀ x ∈ sortedByExcess candsC7,
          balancedQualifies (2, cexCand 0 100) (3, cexCand 50 10) x = false) :=
  claim_C7_balanced_first_in_excess_order 1000 candsC7
    (2, cexCand 0 100) (3, cexCand 50 10)
    (by with_unfolding_all decide) (by with_unfolding_all decide)

/-- Counterexample to C7 as stated: on `candsC7` the code's balanced pick is
the candidate collected second (first qualifier of the excess-sorted scan),
while the first qualifier of the original merge order is the candidate
collected first. -/
theorem claim_C7_counterexample :
    (bestBalancedT 1000 candsC7).map (fun c => c.1) = some 1 ∧
    (mergeOrderBalanced 1000 candsC7).map (fun c => c.1) = some 0 ∧
    bestBalancedT 1000 candsC7 ≠ mergeOrderBalanced 1000 candsC7 := by
  with_unfolding_all decide

/-- C10: when the simple pick is the minimum-excess (precision) object
itself, the head of the ranked solutions is that object labelled `"simple"`
(the later label write overwrites the `"precision"` one), and no ranked
solution carries the type `"precision"` although the head is a
minimum-excess candidate. -/
theorem claim_C10_precision_label_overwritten (D : ℚ) (cands : List Candidate)
    (bp bs : ℕ × Candidate)
    (hbp : bestPrecisionT cands = some bp) (hbs : bestSimpleT D cands = some bs)
    (heq : bs.1 = bp.1) :
    (rankSolutions D cands).head? = some (labeledSimple bp.2) ∧
    (∀ s ∈ rankSolutions D cands, s.type ≠ "precision") ∧
    ∀ c ∈ cands, bp.2.excess ≤ c.excess := by
  have hlist := rankSolutions_of D cands bp bs hbp hbs
  rw [if_pos heq, if_pos heq] at hlist
  refine ⟨?_, ?_, bestPrecisionT_min cands bp hbp⟩
  · rw [hlist]
    rfl
  · intro s hs
    rw [hlist] at hs
    rcases List.mem_cons.mp hs with rfl | h2
    · show ("simple" : String) ≠ "precision"
      decide
    · rw [List.nil_append] at h2
      cases hbb : bestBalancedT D cands with
      | none =>
        rw [hbb] at h2
        cases h2
      | some bb =>
        rw [hbb] at h2
        have h4 : s ∈ (if bb.1 ≠ bp.1 ∧ bb.1 ≠ bs.1
            then [labeledBalanced bb.2] else []) := h2
        by_cases hc : bb.1 ≠ bp.1 ∧ bb.1 ≠ bs.1
        · rw [if_pos hc] at h4
          rcases List.mem_singleton.mp h4 with rfl
          show ("balanced" : String) ≠ "precision"
          decide
        · rw [if_neg hc] at h4
          cases h4

/-- Witness for C10 at the single-candidate list, where the simple pick is
necessarily the precision object. -/
theorem claim_C10_witness :
    (rankSolutions 100 [candW]).head? = some (labeledSimple candW) ∧
    (∀ s ∈ rankSolutions 100 [candW], s.type ≠ "precision") ∧
    ∀ c ∈ [candW], candW.excess ≤ c.excess :=
  claim_C10_precision_label_overwritten 100 [candW] (0, candW) (0, candW)
    (by with_unfolding_all decide) (by with_unfolding_all decide) rfl

/-- Witness for C2 at `paramsW`, whose search succeeds with the single
solution `solsW`. -/
theorem claim_C2_witness :
    searchOptimalCombination paramsW = SearchResult.success solsW ∧
    ∀ s ∈ solsW,
      qsum (s.cand.batteries.map (fun a => a.ratio.value)) ≤ 1 + 1 / 1000000000 ∧
      paramsW.D - 1 / 100 ≤ s.cand.totalPower := by
  have h : searchOptimalCombination paramsW = SearchResult.success solsW := by
    with_unfolding_all exact rfl
  exact ⟨h, claim_C2_success_solution_invariants paramsW solsW h⟩

/-- Witness for C9 at the concrete two-battery candidate of the search at
`params100` with `n = 2`. -/
theorem claim_C9_witness :
    List.Pairwise (fun x y : AssignmentT => y.ratio.value ≤ x.ratio.value)
      candTwoHalves.batteries :=
  claim_C9_candidate_ratios_nonincreasing 1 2 params100 candTwoHalves
    (by with_unfolding_all decide)

set_option maxHeartbeats 4000000 in
/-- Counterexample to C4 as stated: at the C4 scenario the search succeeds,
but no returned solution has `batteryCount = 1` (the full ratio `1` is cut
from `usableRatios` by the duty-cycle filter, so the claimed single-battery
solution is never generated). -/
theorem claim_C4_counterexample :
    (searchOptimalCombination paramsC4).isSuccess = true ∧
    ∀ s ∈ (searchOptimalCombination paramsC4).solutionsList,
      s.cand.batteryCount ≠ 1 := by
  with_unfolding_all decide

set_option maxHeartbeats 4000000 in
/-- C4 (amended): at the C4 scenario every usable catalog ratio is below `1`
(the filter threshold is `consume / R + 0.0001 = 0.0251`), and the search
returns a success whose ranked solutions are the precision pick with three
batteries and excess `7700/243`, the simple pick with two batteries and
excess `4400/81`, and the balanced pick with four batteries and excess
`7700/243` — not a single-battery full-ratio solution with excess `0`. -/
theorem claim_C4_actual_result :
    (∀ r ∈ usableRatios paramsC4 (generateValidRatios 5), r.value < 1) ∧
    (searchOptimalCombination paramsC4).isSuccess = true ∧
    (searchOptimalCombination paramsC4).solutionsList.map
        (fun s => (s.type, s.cand.batteryCount, s.cand.excess)) =
      [("precision", 3, 7700 / 243), ("simple", 2, 4400 / 81),
        ("balanced", 4, 7700 / 243)] :=
  ⟨by with_unfolding_all decide, by with_unfolding_all decide,
    by with_unfolding_all exact rfl⟩
